import Mathlib

/-!
Verification of the hierarchy-construction core of Simple-Org-Chart
(`simple_org_chart/hierarchy.py`): `build_org_hierarchy` and
`collect_missing_manager_records`, shallowly embedded in Lean.

Modelling conventions:
* A Python employee record is the structure `Emp`.  Fields read only with
  `dict.get` (where an absent key and a JSON `null` are indistinguishable)
  are plain `Option` values.  The fields `id`, `managerId` and `name` are
  also read with raising `dict[...]` indexing in `build_org_hierarchy`, so
  they carry an explicit presence flag (`hasId`, `hasManagerId`, `hasName`);
  a raised `KeyError` is modelled by the `Except` error `PyErr.keyError`.
* The mutable node objects of `emp_dict` are modelled by the association
  list `Dict : List (Key × Node)` in Python-dict insertion order, where
  `Key := Option String` (a record whose `id` value is `null` is indexed
  under the key `none`, as in Python).  Every node of `emp_dict` is stored
  under its own `id` value, so object identity of nodes coincides with key
  equality; a node's `children` list is therefore modelled as the list of
  the children's keys, and the membership test
  `emp_copy not in manager['children']` as key membership.
* Per the data model (spec §3) input records carry no `children` key, so
  the guard at hierarchy.py:53 always installs the empty list.
* `str.strip`, `str.lower` and substring search are written out over
  character lists (`pyStrip`, `pyLower`, `charsContains`), implementing
  their behavior on the ASCII data the system handles; Python's
  case-sensitive string comparison is code-point lexicographic
  comparison, written out below as `strLt`.
-/

/-- Python truthiness of an optional string: `None` and `''` are falsy. -/
def pyTruthy : Option String → Bool
  | none => false
  | some s => !s.data.isEmpty

/-- The whitespace stripped by Python's `str.strip()` (ASCII range). -/
def pyIsSpace (c : Char) : Bool :=
  c.toNat = 32 || c.toNat = 9 || c.toNat = 10 || c.toNat = 13 ||
    c.toNat = 11 || c.toNat = 12

/-- Python's `str.strip()` (its behavior on ASCII data; implemented over
the character list so that it evaluates inside the kernel). -/
def pyStrip (s : String) : String :=
  ⟨((s.data.dropWhile pyIsSpace).reverse.dropWhile pyIsSpace).reverse⟩

/-- ASCII lower-casing of one character. -/
def pyCharLower (c : Char) : Char :=
  if 65 ≤ c.toNat ∧ c.toNat ≤ 90 then Char.ofNat (c.toNat + 32) else c

/-- Python's `str.lower()` (its behavior on ASCII data). -/
def pyLower (s : String) : String := ⟨s.data.map pyCharLower⟩

/-- Is the first list a prefix of the second? -/
def charsPrefix : List Char → List Char → Bool
  | [], _ => true
  | _ :: _, [] => false
  | a :: as, b :: bs => a = b && charsPrefix as bs

/-- Does `needle` occur as a contiguous run inside the second list? -/
def charsContains (needle : List Char) : List Char → Bool
  | [] => charsPrefix needle []
  | c :: rest => charsPrefix needle (c :: rest) || charsContains needle rest

/-- A raised Python exception. `keyError f` stands for a `KeyError` on the
record field `f`; `keyErrorK k` for a `KeyError` on an `emp_dict` key. -/
inductive PyErr where
  | keyError (field : String)
  | keyErrorK (k : Option String)
deriving Repr, DecidableEq

/-- An employee record (hierarchy.py data model, spec §3/§6). -/
structure Emp where
  hasId : Bool
  id : Option String
  hasManagerId : Bool
  managerId : Option String
  hasName : Bool
  name : Option String
  title : Option String
  department : Option String
  email : Option String
  phone : Option String
  businessPhone : Option String
  location : Option String
  officeLocation : Option String
  filterReasons : List String
  accountEnabled : Option (Option Bool)
  userType : Option String
  licenseCount : Option Nat
  licenseSkus : Option (List String)
  licenseSkuIds : Option (List String)
  mailboxType : Option String
  isSharedMailbox : Option Bool
deriving Repr, DecidableEq

/-- `emp.get('id')`: `None` when the key is absent. -/
def Emp.getId (e : Emp) : Option String := if e.hasId then e.id else none

/-- `emp.get('managerId')`. -/
def Emp.getManagerId (e : Emp) : Option String :=
  if e.hasManagerId then e.managerId else none

/-- `emp.get('name')`. -/
def Emp.getName (e : Emp) : Option String := if e.hasName then e.name else none

/-- A record with every key present and all values `null`/empty; concrete
test records below are built from it by record update. -/
def emp0 : Emp :=
  ⟨true, none, true, none, true, none, none, none, none, none, none, none,
   none, [], none, none, none, none, none, none, none⟩

/-- Keys of the Python dict `emp_dict`: the `id` values of the records. -/
abbrev Key := Option String

/-- A mutable node of `emp_dict`: the copied record plus its current
`children` list, represented by the children's keys. -/
structure Node where
  data : Emp
  children : List Key
deriving Repr, DecidableEq

/-- `emp_dict`, in Python dict insertion order. -/
abbrev Dict := List (Key × Node)

/-- Association-list lookup (`d[k]` / `k in d`). -/
def aget {ν : Type} (d : List (Key × ν)) (k : Key) : Option ν :=
  match d with
  | [] => none
  | p :: rest => if p.1 = k then some p.2 else aget rest k

/-- Python-dict insertion: overwrite in place if the key exists, else
append (first-insertion position is kept, last value wins). -/
def upsert {ν : Type} (d : List (Key × ν)) (k : Key) (v : ν) : List (Key × ν) :=
  match d with
  | [] => [(k, v)]
  | p :: rest => if p.1 = k then (k, v) :: rest else p :: upsert rest k v

/-- Update the node stored at key `k`, if present. -/
def mapNodeAt (d : Dict) (k : Key) (f : Node → Node) : Dict :=
  d.map fun p => if p.1 = k then (p.1, f p.2) else p

/-- The root-selection configuration read from `settings`
(`topLevelUserEmail` / `topLevelUserId`, read with `.get`). -/
structure Settings where
  topLevelUserEmail : Option String
  topLevelUserId : Option String
deriving Repr, DecidableEq

/-- hierarchy.py:50-54 — `emp_dict = {emp['id']: emp.copy() for ...}` plus
installing an empty `children` list; `KeyError` on a record without `id`. -/
def initEmpDictAux (d : Dict) : List Emp → Except PyErr Dict
  | [] => .ok d
  | e :: rest =>
    if e.hasId then initEmpDictAux (upsert d e.id ⟨e, []⟩) rest
    else .error (.keyError "id")

/-- The fully-built employee index (hierarchy.py:50-54). -/
def initEmpDict (employees : List Emp) : Except PyErr Dict :=
  initEmpDictAux [] employees

/-- hierarchy.py:33-41 — the effective top-user email: the stripped
override when one was passed, else the stripped configured email;
empty collapses to `None`. -/
def topUserEmailOf (ov : Option String) (st : Settings) : Option String :=
  let chosen :=
    match ov with
    | some o => pyStrip o
    | none => pyStrip (st.topLevelUserEmail.getD "")
  if chosen = "" then none else some chosen

/-- hierarchy.py:57-71 — configured root selection: exact email match for
the effective top-user email first, then the configured `topLevelUserId`
fallback.  Returns the chosen root's `emp_dict` key, or `none` when the
auto-detect branch is to run.  The f-string logging at lines 63 and 71
reads `root['name']`, which raises when the chosen root has no `name`. -/
def configuredRootKey (employees : List Emp) (d : Dict) (ov : Option String)
    (st : Settings) : Except PyErr (Option Key) :=
  let byEmail : Option Emp :=
    match topUserEmailOf ov st with
    | some t => employees.find? fun e => e.email = some t
    | none => none
  match byEmail with
  | some e =>
    if e.hasId then
      match aget d e.id with
      | some nd =>
        if nd.data.hasName then .ok (some e.id) else .error (.keyError "name")
      | none => .error (.keyErrorK e.id)
    else .error (.keyError "id")
  | none =>
    let sid := pyStrip (st.topLevelUserId.getD "")
    if sid ≠ "" then
      match aget d (some sid) with
      | some nd =>
        if nd.data.hasName then .ok (some (some sid))
        else .error (.keyError "name")
      | none => .ok none
    else .ok none

/-- Append child key `ck` to the node at key `k` unless already present
(the duplicate-child guard, hierarchy.py:86-87 and 103-104). -/
def appendChild (d : Dict) (k : Key) (ck : Key) : Dict :=
  mapNodeAt d k fun nd =>
    if ck ∈ nd.children then nd else { nd with children := nd.children ++ [ck] }

/-- hierarchy.py:84-87 / 101-104 — add the manager→employee edge for `e`
when `e['managerId']` is truthy and resolves to an `emp_dict` key (a
truthy `managerId` is `some m` with `m ≠ ""`, and `m in emp_dict`
is then key membership of `some m`). -/
def addChildEdge (d : Dict) (e : Emp) : Dict :=
  if pyTruthy e.managerId ∧ (aget d e.managerId).isSome then
    appendChild d e.managerId e.id
  else d

/-- The edge-building loop of the configured-root branch
(hierarchy.py:79-87): skip the root, raise on records without
`id`/`managerId` (raising reads at lines 80 and 84). -/
def configuredEdgesAux (rk : Key) (d : Dict) : List Emp → Except PyErr Dict
  | [] => .ok d
  | e :: rest =>
    if e.hasId = false then .error (.keyError "id")
    else if e.id = rk then configuredEdgesAux rk d rest
    else if e.hasManagerId = false then .error (.keyError "managerId")
    else configuredEdgesAux rk (addChildEdge d e) rest

/-- hierarchy.py:76 — `root['managerId'] = None` on the root node. -/
def clearManagerId (nd : Node) : Node :=
  { nd with data := { nd.data with hasManagerId := true, managerId := none } }

/-- hierarchy.py:90-91 — remove the root from every `children` list. -/
def removeRootChild (rk : Key) (d : Dict) : Dict :=
  d.map fun p => (p.1, { p.2 with children := p.2.children.filter (· ≠ rk) })

/-- hierarchy.py:73-93 — the configured-root branch: force the root's
`managerId` to `null`, build edges skipping the root, then remove the
root from every `children` list.  (`root['id']` and `child['id']` equal
the corresponding `emp_dict` keys, since every node is stored under its
own `id` value.) -/
def buildConfigured (employees : List Emp) (d0 : Dict) (rk : Key) :
    Except PyErr (Dict × Key) := do
  let d2 ← configuredEdgesAux rk (mapNodeAt d0 rk clearManagerId) employees
  .ok (removeRootChild rk d2, rk)

/-- Append a root candidate unless already present (hierarchy.py:106-107). -/
def addCand (cands : List Key) (k : Key) : List Key :=
  if k ∈ cands then cands else cands ++ [k]

/-- One iteration of the auto-detect edge/candidate loop
(hierarchy.py:99-107): resolvable truthy `managerId` adds an edge; falsy
`managerId` adds a root candidate; truthy but unresolvable does neither. -/
def autoStep (acc : Dict × List Key) (e : Emp) : Except PyErr (Dict × List Key) :=
  if e.hasId = false then .error (.keyError "id")
  else if e.hasManagerId = false then .error (.keyError "managerId")
  else if pyTruthy e.managerId then .ok (addChildEdge acc.1 e, acc.2)
  else .ok (acc.1, addCand acc.2 e.id)

/-- The auto-detect edge/candidate loop (hierarchy.py:99-107). -/
def autoFoldAux (acc : Dict × List Key) : List Emp → Except PyErr (Dict × List Key)
  | [] => .ok acc
  | e :: rest => do autoFoldAux (← autoStep acc e) rest

/-- hierarchy.py:111 — the CEO title keywords. -/
def ceoKeywords : List String :=
  ["chief executive", "ceo", "president", "chair", "director", "head"]

/-- Substring test: Python's `needle in haystack` on strings. -/
def strContains (haystack needle : String) : Bool :=
  charsContains needle.data haystack.data

/-- hierarchy.py:113-114 — does the candidate's lower-cased title contain
a CEO keyword? -/
def candHasKeyword (d : Dict) (k : Key) : Bool :=
  match aget d k with
  | some nd => ceoKeywords.any fun kw =>
      strContains (pyLower (nd.data.title.getD "")) kw
  | none => false

/-- hierarchy.py:129-133 — the employee with the greatest number of direct
children, first maximum wins, none when every count is zero. -/
def mostReportsAux (acc : Nat × Option Key) : Dict → Nat × Option Key
  | [] => acc
  | p :: rest =>
    if p.2.children.length > acc.1 then mostReportsAux (p.2.children.length, some p.1) rest
    else mostReportsAux acc rest

/-- hierarchy.py:94-142 — the auto-detect branch.  The f-string logging at
line 136 reads `root['name']` for a most-reports root. -/
def buildAuto (employees : List Emp) (d0 : Dict) :
    Except PyErr (Option (Dict × Key)) := do
  let (d, cands) ← autoFoldAux (d0, []) employees
  if cands ≠ [] then
    match cands.find? (candHasKeyword d) with
    | some k => .ok (some (d, k))
    | none =>
      match cands.head? with
      | some k => .ok (some (d, k))
      | none => .ok none
  else
    match (mostReportsAux (0, none) d).2 with
    | some k =>
      match aget d k with
      | some nd =>
        if nd.data.hasName then .ok (some (d, k)) else .error (.keyError "name")
      | none => .ok (some (d, k))
    | none =>
      match employees.head? with
      | some e0 =>
        if e0.hasId then
          match aget d e0.id with
          | some _ => .ok (some (d, e0.id))
          | none => .error (.keyErrorK e0.id)
        else .error (.keyError "id")
      | none => .ok none

/-- hierarchy.py:19-142 — `build_org_hierarchy(employees,
top_user_email_override, settings)`, with `settings` supplied explicitly
(the `settings is None → load_settings()` path performs file I/O outside
this core).  The result is the final `emp_dict` together with the chosen
root's key, `none` for an empty employee list, or a raised `KeyError`. -/
def build_org_hierarchy (employees : List Emp) (ov : Option String)
    (st : Settings) : Except PyErr (Option (Dict × Key)) :=
  if employees.isEmpty then .ok none
  else do
    let d ← initEmpDict employees
    match ← configuredRootKey employees d ov st with
    | some rk => do
      let r ← buildConfigured employees d rk
      .ok (some r)
    | none => buildAuto employees d

/-- The key of the root returned by a `build_org_hierarchy` call. -/
def builtRootKey (r : Except PyErr (Option (Dict × Key))) : Option Key :=
  match r with
  | .ok (some (_, k)) => some k
  | _ => none

/-- The `managerId` value carried by the returned root node. -/
def builtRootManagerId (r : Except PyErr (Option (Dict × Key))) :
    Option (Option String) :=
  match r with
  | .ok (some (d, k)) => (aget d k).map fun nd => nd.data.managerId
  | _ => none

/-! ## `collect_missing_manager_records` (hierarchy.py:145-238) -/

/-- hierarchy.py:155 — `employee_index = {emp['id']: emp for emp in
employees if emp.get('id')}` (truthy ids only, last value wins). -/
def employeeIndexAux (idx : List (Key × Emp)) : List Emp → List (Key × Emp)
  | [] => idx
  | e :: rest =>
    if pyTruthy e.getId then employeeIndexAux (upsert idx e.getId e) rest
    else employeeIndexAux idx rest

/-- The employee index of `collect_missing_manager_records`. -/
def employeeIndex (employees : List Emp) : List (Key × Emp) :=
  employeeIndexAux [] employees

/-- hierarchy.py:158-164 — the depth-first `traverse` recording visited
ids; a falsy or already-visited id returns before descending.  Children
are resolved through the dict; the fuel is an upper bound on the
recursion depth, which cannot exceed the number of distinct ids plus one
because every level of descent records a fresh id. -/
def traverse (d : Dict) : Nat → Key → List String → List String
  | 0, _, vis => vis
  | fuel + 1, k, vis =>
    match aget d k with
    | none => vis
    | some nd =>
      match nd.data.getId with
      | none => vis
      | some nid =>
        if nid = "" then vis
        else if nid ∈ vis then vis
        else nd.children.foldl (fun v ck => traverse d fuel ck v) (vis ++ [nid])

/-- The visited-id set after `traverse(hierarchy_root)`
(hierarchy.py:166-167); empty when no root was supplied. -/
def visitedOf (hroot : Option (Dict × Key)) : List String :=
  match hroot with
  | none => []
  | some (d, k) => traverse d (d.length + 1) k []

/-- The hierarchy root node itself, resolved through its dict. -/
def rootNodeOf (hroot : Option (Dict × Key)) : Option Node :=
  hroot.bind fun p => aget p.1 p.2

/-- hierarchy.py:169-173 — `root_ids`: the root's id when truthy. -/
def rootIdsOf (hroot : Option (Dict × Key)) : List String :=
  match rootNodeOf hroot with
  | some nd =>
    match nd.data.getId with
    | some s => if s = "" then [] else [s]
    | none => []
  | none => []

/-- hierarchy.py:178-181 — the effective top-user email of the collector:
stripped and lower-cased override when passed (empty collapsing to
`None`), else the configured email.  `settings` is supplied explicitly
and non-empty, so the `elif settings:` test succeeds. -/
def effTopUserEmail (st : Settings) (ov : Option String) : Option String :=
  let t :=
    match ov with
    | some o => pyLower (pyStrip o)
    | none => pyLower (pyStrip (st.topLevelUserEmail.getD ""))
  if t = "" then none else some t

/-- Membership of an optional id in the visited set (`emp_id in visited`;
a `None` id is never a member). -/
def visitedMem (visited : List String) : Option String → Bool
  | some s => visited.contains s
  | none => false

/-- hierarchy.py:202-207 — the structural classification, in order:
falsy `managerId` → `no_manager`; set but absent from the index →
`manager_not_found`; resolving but unvisited id → `detached`; else none. -/
def classifyMissing (idx : List (Key × Emp)) (visited : List String)
    (e : Emp) : Option String :=
  if ¬pyTruthy e.getManagerId then some "no_manager"
  else if (aget idx e.getManagerId).isNone then some "manager_not_found"
  else if ¬visitedMem visited e.getId then some "detached"
  else none

/-- hierarchy.py:199-200 — the resolved manager's display name, `''` when
the manager does not resolve. -/
def managerNameOf (idx : List (Key × Emp)) (e : Emp) : String :=
  if pyTruthy e.getManagerId ∧ (aget idx e.getManagerId).isSome then
    match aget idx e.getManagerId with
    | some m => m.getName.getD ""
    | none => ""
  else ""

/-- One emitted row of the missing-manager report (hierarchy.py:215-235). -/
structure MissingRecord where
  id : Option String
  name : Option String
  title : Option String
  department : Option String
  email : Option String
  phone : Option String
  businessPhone : Option String
  location : String
  managerName : String
  reason : String
  missingReason : String
  filterReasons : List String
  accountEnabled : Option Bool
  userType : String
  licenseCount : Nat
  licenseSkus : List String
  licenseSkuIds : List String
  mailboxType : Option String
  isSharedMailbox : Option Bool
deriving Repr, DecidableEq

/-- `emp.get('location') or emp.get('officeLocation') or ''`
(hierarchy.py:223). -/
def locationOf (e : Emp) : String :=
  match e.location with
  | some s =>
    if s ≠ "" then s
    else match e.officeLocation with
      | some t => if t ≠ "" then t else ""
      | none => ""
  | none =>
    match e.officeLocation with
    | some t => if t ≠ "" then t else ""
    | none => ""

/-- hierarchy.py:191-192 — skip an employee whose truthy id is the
hierarchy root's id. -/
def skipAsRoot (rootIds : List String) (e : Emp) : Bool :=
  pyTruthy e.getId && visitedMem rootIds e.getId

/-- hierarchy.py:194-197 — skip an employee whose normalized email equals
the effective top-user email. -/
def skipAsTopUser (tue : Option String) (e : Emp) : Bool :=
  match tue with
  | some t =>
    let em := pyLower (pyStrip (e.email.getD ""))
    em ≠ "" && em = t
  | none => false

/-- hierarchy.py:185-235 — the per-employee body of the collection loop:
`none` when the employee is skipped (root or top-user exemption) or not
classified as missing, otherwise the emitted record, whose user-facing
`reason` is overridden to `filtered` when the employee carries filter
reasons while `missingReason` keeps the structural classification. -/
def emitFor (idx : List (Key × Emp)) (visited : List String)
    (rootIds : List String) (tue : Option String) (e : Emp) :
    Option MissingRecord :=
  if skipAsRoot rootIds e then none
  else if skipAsTopUser tue e then none
  else
    match classifyMissing idx visited e with
    | some reason =>
      some
        { id := e.getId
          name := e.getName
          title := e.title
          department := e.department
          email := e.email
          phone := e.phone
          businessPhone := e.businessPhone
          location := locationOf e
          managerName := managerNameOf idx e
          reason := if e.filterReasons ≠ [] then "filtered" else reason
          missingReason := reason
          filterReasons := e.filterReasons
          accountEnabled := e.accountEnabled.getD (some true)
          userType := pyLower (e.userType.getD "")
          licenseCount := e.licenseCount.getD 0
          licenseSkus := e.licenseSkus.getD []
          licenseSkuIds := e.licenseSkuIds.getD []
          mailboxType := e.mailboxType
          isSharedMailbox := e.isSharedMailbox }
    | none => none

/-! ### The final sort (hierarchy.py:237)

Python's `list.sort` is a stable sort; stable sorting by a key is
extensionally unique, so it is embedded as a stable insertion sort.
Python compares strings lexicographically by code point, written out as
`strLt` below; the sort key is the pair `(department or '', name or '')`
with strict lexicographic pair comparison. -/

/-- Code-point comparison of characters. -/
def charLt (a b : Char) : Bool := a.toNat < b.toNat

/-- Lexicographic code-point comparison of character lists (a proper
prefix is smaller). -/
def charsLt : List Char → List Char → Bool
  | _, [] => false
  | [], _ :: _ => true
  | a :: as, b :: bs =>
    if charLt a b then true else if charLt b a then false else charsLt as bs

/-- Python's `<` on strings. -/
def strLt (a b : String) : Bool := charsLt a.data b.data

/-- Strict lexicographic comparison of sort-key pairs. -/
def pairLt (a b : String × String) : Bool :=
  strLt a.1 b.1 || (a.1 = b.1 && strLt a.2 b.2)

/-- The sort key of hierarchy.py:237:
`(item.get('department') or '', item.get('name') or '')`. -/
def sortKey (r : MissingRecord) : String × String :=
  (r.department.getD "", r.name.getD "")

/-- `r1` sorts strictly before `r2`. -/
def recLt (r1 r2 : MissingRecord) : Bool := pairLt (sortKey r1) (sortKey r2)

/-- Insert `a` after every element not strictly greater — the insertion
step of a stable sort. -/
def stableInsert {α : Type} (lt : α → α → Bool) (a : α) : List α → List α
  | [] => [a]
  | b :: l => if lt a b then a :: b :: l else b :: stableInsert lt a l

/-- Stable sort: left fold of stable insertions, so later input elements
land after equal earlier ones — extensionally Python's `list.sort`. -/
def stableSort {α : Type} (lt : α → α → Bool) (l : List α) : List α :=
  l.foldl (fun acc a => stableInsert lt a acc) []

/-- hierarchy.py:145-238 — `collect_missing_manager_records(employees,
hierarchy_root, settings, top_user_email_override)` with `settings`
supplied explicitly. -/
def collect_missing_manager_records (employees : List Emp)
    (hroot : Option (Dict × Key)) (st : Settings) (ov : Option String) :
    List MissingRecord :=
  if employees.isEmpty then []
  else
    stableSort recLt
      (employees.filterMap
        (emitFor (employeeIndex employees) (visitedOf hroot) (rootIdsOf hroot)
          (effTopUserEmail st ov)))

/-! ## Concrete test records used by witnesses and counterexamples -/

/-- A chief-executive record with no manager. -/
def empCeo : Emp :=
  { emp0 with id := some "a", name := some "Alice", email := some "ceo@x",
              title := some "Chief Executive Officer" }

/-- A record reporting to `empCeo`. -/
def empCfo : Emp :=
  { emp0 with id := some "b", name := some "Bob", email := some "cfo@x",
              managerId := some "a" }

/-- A record whose `managerId` resolves to no known id. -/
def empGhost : Emp :=
  { emp0 with id := some "g", name := some "Gil", managerId := some "ghost" }

/-- A record that is its own manager. -/
def empSelf : Emp :=
  { emp0 with id := some "x", name := some "Xan", managerId := some "x" }

/-- A manager-less record with no CEO-keyword title. -/
def empPlain : Emp :=
  { emp0 with id := some "r", name := some "Rae" }

/-- The all-empty configuration. -/
def noSettings : Settings := ⟨none, none⟩

/-! ## Association-list and dict-state lemmas -/

theorem aget_upsert {ν : Type} (d : List (Key × ν)) (k : Key) (v : ν) (k' : Key) :
    aget (upsert d k v) k' = if k' = k then some v else aget d k' := by
  induction d with
  | nil =>
    by_cases hk : k' = k
    · subst hk; simp [upsert, aget]
    · simp [upsert, aget, hk, Ne.symm hk]
  | cons p rest ih =>
    by_cases hp : p.1 = k
    · by_cases hk : k' = k
      · subst hk; simp [upsert, aget, hp]
      · have h1 : ¬ k = k' := fun h => hk h.symm
        have h2 : ¬ p.1 = k' := fun h => hk (hp.symm.trans h).symm
        simp [upsert, aget, hp, hk, h1, h2]
    · by_cases hpk : p.1 = k'
      · have hk : ¬ k' = k := fun h => hp (hpk.trans h)
        simp [upsert, aget, hp, hpk, hk]
      · simp [upsert, aget, hp, hpk, ih]

theorem aget_mapNodeAt (d : Dict) (k0 : Key) (f : Node → Node) (k : Key) :
    aget (mapNodeAt d k0 f) k
      = if k = k0 then (aget d k).map f else aget d k := by
  induction d with
  | nil => by_cases hk : k = k0 <;> simp [mapNodeAt, aget, hk]
  | cons p rest ih =>
    simp only [mapNodeAt, List.map] at ih ⊢
    by_cases hp : p.1 = k0
    · subst hp
      by_cases hkp : p.1 = k
      · subst hkp; simp [aget]
      · have h1 : ¬ k = p.1 := fun h => hkp h.symm
        simp [aget, hkp, h1, ih]
    · by_cases hkp : p.1 = k
      · subst hkp
        simp [aget, hp]
      · simp [aget, hp, hkp, ih]

theorem aget_map_children (d : Dict) (g : List Key → List Key) (k : Key) :
    aget (d.map fun p => (p.1, { p.2 with children := g p.2.children })) k
      = (aget d k).map fun nd => { nd with children := g nd.children } := by
  induction d with
  | nil => simp [aget]
  | cons p rest ih =>
    by_cases hp : p.1 = k <;> simp [aget, hp, ih]

/-- The record data stored at a key, ignoring the `children` state. -/
def dataAt (d : Dict) (k : Key) : Option Emp := (aget d k).map Node.data

theorem dataAt_appendChild (d : Dict) (k0 ck k : Key) :
    dataAt (appendChild d k0 ck) k = dataAt d k := by
  simp only [dataAt, appendChild, aget_mapNodeAt]
  by_cases hk : k = k0
  · subst hk
    cases aget d k with
    | none => simp
    | some nd => by_cases hc : ck ∈ nd.children <;> simp [hc]
  · simp [hk]

theorem dataAt_addChildEdge (d : Dict) (e : Emp) (k : Key) :
    dataAt (addChildEdge d e) k = dataAt d k := by
  unfold addChildEdge
  by_cases hm : pyTruthy e.managerId ∧ (aget d e.managerId).isSome <;>
    simp [hm, dataAt_appendChild]

theorem dataAt_configuredEdgesAux (rk : Key) (l : List Emp) (d d' : Dict)
    (h : configuredEdgesAux rk d l = .ok d') (k : Key) :
    dataAt d' k = dataAt d k := by
  induction l generalizing d with
  | nil => cases h; rfl
  | cons e rest ih =>
    simp only [configuredEdgesAux] at h
    split at h
    · exact absurd h (by simp)
    · split at h
      · exact ih _ h
      · split at h
        · exact absurd h (by simp)
        · exact (ih _ h).trans (dataAt_addChildEdge d e k)

theorem dataAt_autoStep (acc acc' : Dict × List Key) (e : Emp)
    (h : autoStep acc e = .ok acc') (k : Key) :
    dataAt acc'.1 k = dataAt acc.1 k := by
  simp only [autoStep] at h
  split at h
  · exact absurd h (by simp)
  · split at h
    · exact absurd h (by simp)
    · split at h
      · cases h; exact dataAt_addChildEdge _ _ _
      · cases h; rfl

theorem dataAt_autoFoldAux (l : List Emp) (acc acc' : Dict × List Key)
    (h : autoFoldAux acc l = .ok acc') (k : Key) :
    dataAt acc'.1 k = dataAt acc.1 k := by
  induction l generalizing acc with
  | nil => cases h; rfl
  | cons e rest ih =>
    simp only [autoFoldAux] at h
    cases hs : autoStep acc e with
    | error err => rw [hs] at h; exact absurd h (by simp [Bind.bind, Except.bind])
    | ok acc1 =>
      rw [hs] at h
      simp only [Bind.bind, Except.bind] at h
      exact (ih acc1 h).trans (dataAt_autoStep acc acc1 e hs k)

/-! ## C9 — determinism of `build_org_hierarchy` -/

/-- C9: `build_org_hierarchy` is deterministic — two calls with
deep-equal employee lists, the same override argument and the same
explicitly supplied settings return deep-equal trees. -/
theorem C9_theorem (l1 l2 : List Emp) (ov1 ov2 : Option String)
    (st1 st2 : Settings) (hl : l1 = l2) (hov : ov1 = ov2) (hst : st1 = st2) :
    build_org_hierarchy l1 ov1 st1 = build_org_hierarchy l2 ov2 st2 := by
  rw [hl, hov, hst]

/-- Witness for C9 at a concrete input. -/
theorem C9_witness :
    build_org_hierarchy [empCeo, empCfo] none noSettings
      = build_org_hierarchy [empCeo, empCfo] none noSettings :=
  C9_theorem [empCeo, empCfo] [empCeo, empCfo] none none noSettings noSettings
    rfl rfl rfl

/-! ## C2 — the root's `managerId` -/

/-- C2 counterexample: for the single employee `empGhost` (a non-null,
unresolvable `managerId`), auto-detect falls through to the
first-employee branch and the returned root keeps `managerId "ghost"`,
not `null`. -/
theorem C2_counterexample :
    builtRootManagerId (build_org_hierarchy [empGhost] none noSettings)
      = some (some "ghost") := by decide

/-- C2 amended: the returned root's `managerId` is forced to `null`
whenever the configured-root branch ran (override or configured email
match, or configured-id fallback); the auto-detect branches return the
source `managerId` unchanged, which may be non-null (see the
counterexample). -/
theorem C2_theorem (employees : List Emp) (d0 : Dict) (rk : Key)
    (d : Dict) (k : Key) (nd : Node)
    (hb : buildConfigured employees d0 rk = .ok (d, k))
    (hnd : aget d k = some nd) : nd.data.managerId = none := by
  simp only [buildConfigured] at hb
  cases hce : configuredEdgesAux rk (mapNodeAt d0 rk clearManagerId)
      employees with
  | error err =>
    rw [hce] at hb
    exact absurd hb (by simp [Bind.bind, Except.bind])
  | ok d2 =>
    rw [hce] at hb
    simp only [Bind.bind, Except.bind] at hb
    injection hb with hb'
    have hdk : d = removeRootChild rk d2 := (congrArg Prod.fst hb').symm
    have hkk : k = rk := (congrArg Prod.snd hb').symm
    subst hdk hkk
    rw [removeRootChild, aget_map_children] at hnd
    cases hag : aget d2 k with
    | none => rw [hag] at hnd; exact absurd hnd (by simp)
    | some nd2 =>
      rw [hag] at hnd
      have hdata : nd.data = nd2.data := by
        injection hnd with h
        rw [← h]
      have h2 : dataAt d2 k = dataAt (mapNodeAt d0 k clearManagerId) k :=
        dataAt_configuredEdgesAux k employees _ d2 hce k
      rw [hdata]
      have h3 : dataAt d2 k = some nd2.data := by simp [dataAt, hag]
      rw [h3] at h2
      simp only [dataAt, aget_mapNodeAt, if_pos rfl, Option.map_map,
        clearManagerId] at h2
      cases hag0 : aget d0 k with
      | none => rw [hag0] at h2; exact absurd h2 (by simp)
      | some nd0 =>
        rw [hag0] at h2
        simp only [Option.map_some', Option.some_inj, Function.comp] at h2
        injection h2 with h4
        rw [h4]
        rfl

/-- The initial dict for a two-record configured-branch run. -/
def cfgDict0 : Dict := [(some "a", ⟨empCeo, []⟩), (some "b", ⟨empCfo, []⟩)]

/-- The configured-branch result rooted at `empCfo` (id `b`). -/
def cfgRes : Dict × Key :=
  (buildConfigured [empCeo, empCfo] cfgDict0 (some "b")).toOption.getD ([], none)

/-- The root node of `cfgRes`. -/
def cfgRootNode : Node := (aget cfgRes.1 cfgRes.2).getD ⟨emp0, []⟩

/-- Witness for C2 at a concrete input: rooting at `empCfo` (whose source
`managerId` is `"a"`) yields a root with `managerId` `null`. -/
theorem C2_witness : cfgRootNode.data.managerId = none :=
  C2_theorem [empCeo, empCfo] cfgDict0 (some "b") cfgRes.1 cfgRes.2 cfgRootNode
    rfl rfl

/-! ## C1 — override precedence over the configured defaults -/

/-- C1 counterexample: with the override `"ghost@x"` matching no
employee's email, the build still consults the configured
`topLevelUserId` (`"b"`) and roots there, while the heuristic
auto-detect of the same list picks `"a"`. -/
theorem C1_counterexample :
    builtRootKey (build_org_hierarchy [empCeo, empCfo] (some "ghost@x")
        ⟨some "ceo@x", some "b"⟩) = some (some "b")
    ∧ builtRootKey (build_org_hierarchy [empCeo, empCfo] (some "ghost@x")
        ⟨some "ceo@x", none⟩) = some (some "a")
    ∧ ∀ e ∈ [empCeo, empCfo], e.email ≠ some (pyStrip "ghost@x") := by
  decide

/-- C1 amended: when the override is provided and matches no employee's
email, the configured `topLevelUserEmail` is indeed never consulted
(changing it cannot change the result), but the configured
`topLevelUserId` still is: if its stripped value is non-empty and is a
key of the employee index, that employee becomes the root through the
configured-root branch; only otherwise does the build fall through to
the heuristic auto-detect of step 3. -/
theorem C1_theorem (emps : List Emp) (o : String) (st : Settings) (d : Dict)
    (e1 : Option String) :
    (build_org_hierarchy emps (some o) { st with topLevelUserEmail := e1 }
       = build_org_hierarchy emps (some o) st)
    ∧ ((∀ e ∈ emps, e.email ≠ some (pyStrip o)) →
        (∀ nd, aget d (some (pyStrip (st.topLevelUserId.getD ""))) = some nd →
            pyStrip (st.topLevelUserId.getD "") ≠ "" → nd.data.hasName = true →
            configuredRootKey emps d (some o) st
              = .ok (some (some (pyStrip (st.topLevelUserId.getD "")))))
        ∧ (pyStrip (st.topLevelUserId.getD "") = ""
             ∨ aget d (some (pyStrip (st.topLevelUserId.getD ""))) = none →
            configuredRootKey emps d (some o) st = .ok none))
    ∧ (emps ≠ [] → initEmpDict emps = .ok d →
        configuredRootKey emps d (some o) st = .ok none →
        build_org_hierarchy emps (some o) st = buildAuto emps d) := by
  refine ⟨rfl, fun hnm => ⟨?_, ?_⟩, fun hne hinit hcfg => ?_⟩
  · intro nd hag hsid hname
    have hfind : (emps.find? fun e => e.email = some (pyStrip o)) = none := by
      rw [List.find?_eq_none]
      intro e he
      simp [hnm e he]
    simp only [configuredRootKey, topUserEmailOf]
    by_cases ho : pyStrip o = "" <;> simp [ho, hfind, hsid, hag, hname]
  · intro hcase
    have hfind : (emps.find? fun e => e.email = some (pyStrip o)) = none := by
      rw [List.find?_eq_none]
      intro e he
      simp [hnm e he]
    simp only [configuredRootKey, topUserEmailOf]
    rcases hcase with hsid | hag
    · by_cases ho : pyStrip o = "" <;> simp [ho, hfind, hsid]
    · by_cases ho : pyStrip o = "" <;>
        by_cases hsid : pyStrip (st.topLevelUserId.getD "") = "" <;>
        simp [ho, hfind, hsid, hag]
  · have hne' : emps.isEmpty = false := by
      cases emps with
      | nil => exact absurd rfl hne
      | cons a l => rfl
    simp only [build_org_hierarchy, hne', Bool.false_eq_true, if_false, hinit,
      hcfg, Bind.bind, Except.bind]

/-- Witness for C1 at a concrete input: override `"ghost@x"`, configured
id `"b"` resolvable — the configured-root branch picks `"b"`. -/
theorem C1_witness :
    configuredRootKey [empCeo, empCfo] cfgDict0 (some "ghost@x")
        ⟨some "ceo@x", some "b"⟩ = .ok (some (some "b")) :=
  ((C1_theorem [empCeo, empCfo] "ghost@x" ⟨some "ceo@x", some "b"⟩ cfgDict0
      none).2.1 (by decide)).1 ⟨empCfo, []⟩ (by decide) (by decide) (by decide)

/-! ## C3 — the root-candidate set of the auto-detect branch -/

theorem pyTruthy_some_iff (m : String) : pyTruthy (some m) = false ↔ m = "" := by
  constructor
  · intro h
    simp only [pyTruthy, Bool.not_eq_false'] at h
    cases hm : m.data with
    | cons c l => rw [hm] at h; simp [List.isEmpty] at h
    | nil => exact String.ext hm
  · intro h
    subst h
    rfl

theorem mem_addCand (cands : List Key) (k0 k : Key) :
    k ∈ addCand cands k0 ↔ k = k0 ∨ k ∈ cands := by
  unfold addCand
  by_cases h : k0 ∈ cands
  · simp only [h, if_true]
    constructor
    · exact Or.inr
    · rintro (rfl | hk)
      · exact h
      · exact hk
  · simp [h, List.mem_append]
    tauto

/-- The candidates accumulated by the auto-detect loop are exactly the
keys of input records with a falsy (`null` or `''`) `managerId`. -/
theorem autoFoldAux_candidates (l : List Emp) (d0 : Dict) (c0 : List Key)
    (acc : Dict × List Key) (h : autoFoldAux (d0, c0) l = .ok acc) (k : Key) :
    k ∈ acc.2 ↔ k ∈ c0 ∨ ∃ e ∈ l, e.id = k ∧ pyTruthy e.managerId = false := by
  induction l generalizing d0 c0 with
  | nil =>
    cases h
    simp
  | cons e rest ih =>
    simp only [autoFoldAux] at h
    cases hs : autoStep (d0, c0) e with
    | error err => rw [hs] at h; exact absurd h (by simp [Bind.bind, Except.bind])
    | ok acc1 =>
      rw [hs] at h
      simp only [Bind.bind, Except.bind] at h
      rw [ih _ _ h]
      simp only [autoStep] at hs
      by_cases h1 : e.hasId = false
      · rw [if_pos h1] at hs; exact Except.noConfusion hs
      rw [if_neg h1] at hs
      by_cases h2 : e.hasManagerId = false
      · rw [if_pos h2] at hs; exact Except.noConfusion hs
      rw [if_neg h2] at hs
      by_cases h3 : pyTruthy e.managerId = true
      · rw [if_pos h3] at hs
        injection hs with h4
        rw [← h4]
        constructor
        · rintro (hk | ⟨e', he', hp⟩)
          · exact Or.inl hk
          · exact Or.inr ⟨e', List.mem_cons_of_mem e he', hp⟩
        · rintro (hk | ⟨e', he', hid, hp⟩)
          · exact Or.inl hk
          · rcases List.mem_cons.mp he' with rfl | he''
            · rw [h3] at hp; exact Bool.noConfusion hp
            · exact Or.inr ⟨e', he'', hid, hp⟩
      · rw [if_neg h3] at hs
        injection hs with h4
        rw [← h4]
        simp only [mem_addCand, List.mem_cons]
        constructor
        · rintro ((hk | hk) | ⟨e', he', hp⟩)
          · exact Or.inr ⟨e, Or.inl rfl, hk.symm, Bool.not_eq_true _ ▸ h3⟩
          · exact Or.inl hk
          · exact Or.inr ⟨e', Or.inr he', hp⟩
        · rintro (hk | ⟨e', he' | he', hid, hp⟩)
          · exact Or.inl (Or.inr hk)
          · exact Or.inl (Or.inl (he' ▸ hid).symm)
          · exact Or.inr ⟨e', he', hid, hp⟩
/-- The initial dict of the two-record auto-detect run with an
unresolvable manager reference. -/
def ghostDict0 : Dict := [(some "g", ⟨empGhost, []⟩), (some "r", ⟨empPlain, []⟩)]

/-- The auto-detect edge/candidate loop's result on that run. -/
def ghostFold : Dict × List Key :=
  (autoFoldAux (ghostDict0, []) [empGhost, empPlain]).toOption.getD ([], [])

/-- C3 counterexample: `empGhost`'s `managerId` (`"ghost"`) is truthy but
matches no id in the index, yet `empGhost` is NOT a root candidate — the
candidate list holds only `empPlain`'s key. -/
theorem C3_counterexample :
    ghostFold.2 = [some "r"]
    ∧ some "g" ∉ ghostFold.2
    ∧ empGhost.managerId = some "ghost"
    ∧ aget ghostDict0 (some "ghost") = none := by decide

/-- C3 amended: the root candidates of the auto-detect branch are exactly
the employees whose `managerId` is falsy (`null` or the empty string);
an employee whose `managerId` is set but resolves to no id in the index
contributes no edge and is NOT a root candidate. -/
theorem C3_theorem (emps : List Emp) (d0 d : Dict) (cands : List Key)
    (hfold : autoFoldAux (d0, []) emps = .ok (d, cands)) (k : Key) :
    k ∈ cands ↔ ∃ e ∈ emps, e.id = k ∧ pyTruthy e.managerId = false := by
  have h := autoFoldAux_candidates emps d0 [] (d, cands) hfold k
  simpa using h

/-- Witness for C3 at a concrete input: the manager-less `empPlain` is a
root candidate. -/
theorem C3_witness : some "r" ∈ ghostFold.2 :=
  (C3_theorem [empGhost, empPlain] ghostDict0 ghostFold.1 ghostFold.2 rfl
      (some "r")).mpr ⟨empPlain, by decide, rfl, rfl⟩

/-! ## C10 — the empty-string `managerId` -/

/-- C10: an employee whose `managerId` is the empty string is treated
exactly like one whose `managerId` is `null`: the auto-detect step adds
no edge and records the employee as a root candidate (identically for
both variants), and the collector classifies both as `no_manager` —
never as `manager_not_found`. -/
theorem C10_theorem (d : Dict) (cands : List Key) (e : Emp)
    (idx : List (Key × Emp)) (visited : List String)
    (hm : e.managerId = some "") (h2 : e.hasManagerId = true)
    (h1 : e.hasId = true) :
    autoStep (d, cands) e = .ok (d, addCand cands e.id)
    ∧ autoStep (d, cands) e = autoStep (d, cands) { e with managerId := none }
    ∧ classifyMissing idx visited e = some "no_manager"
    ∧ classifyMissing idx visited { e with managerId := none }
        = some "no_manager"
    ∧ classifyMissing idx visited e ≠ some "manager_not_found" := by
  have htr : pyTruthy e.managerId = false := by rw [hm]; rfl
  have hg : pyTruthy e.getManagerId = false := by
    rw [Emp.getManagerId, if_pos h2]; exact htr
  have h0 : autoStep (d, cands) e = .ok (d, addCand cands e.id) := by
    simp [autoStep, h1, h2, htr]
  refine ⟨h0, ?_, ?_, ?_, ?_⟩
  · rw [h0]
    simp [autoStep, h1, h2, pyTruthy]
  · simp [classifyMissing, hg]
  · simp [classifyMissing, Emp.getManagerId, h2]
    intro hc
    exact Bool.noConfusion hc
  · simp [classifyMissing, hg]

/-- Witness for C10 at a concrete input. -/
theorem C10_witness :
    autoStep (ghostDict0, []) { emp0 with id := some "e", managerId := some "" }
      = .ok (ghostDict0, addCand [] (some "e")) :=
  (C10_theorem ghostDict0 [] { emp0 with id := some "e", managerId := some "" }
    [] [] rfl rfl rfl).1
/-! ## C7 — raising behavior on malformed records -/

/-- A record whose `id` key is missing. -/
def empNoId : Emp := { emp0 with hasId := false }

/-- The raised error of a build call, if any. -/
def builtError (r : Except PyErr (Option (Dict × Key))) : Option PyErr :=
  match r with
  | .error er => some er
  | .ok _ => none

theorem initEmpDictAux_error (l : List Emp) (d : Dict)
    (h : ∃ e ∈ l, e.hasId = false) :
    initEmpDictAux d l = .error (.keyError "id") := by
  induction l generalizing d with
  | nil => obtain ⟨e, he, _⟩ := h; cases he
  | cons e rest ih =>
    by_cases h1 : e.hasId
    · obtain ⟨e', he', hid⟩ := h
      rcases List.mem_cons.mp he' with rfl | he''
      · rw [h1] at hid; exact Bool.noConfusion hid
      · simp only [initEmpDictAux, if_pos h1]
        exact ih _ ⟨e', he'', hid⟩
    · simp only [initEmpDictAux, if_neg h1]

theorem pyTruthy_some_true_iff (m : String) :
    pyTruthy (some m) = true ↔ m ≠ "" := by
  rw [← Bool.not_eq_false, not_iff_not]
  exact pyTruthy_some_iff m

theorem employeeIndexAux_mem (l : List Emp) (idx : List (Key × Emp)) (s : String) :
    (aget (employeeIndexAux idx l) (some s)).isSome = true
      ↔ (aget idx (some s)).isSome = true
        ∨ ∃ e ∈ l, e.getId = some s ∧ s ≠ "" := by
  induction l generalizing idx with
  | nil => simp [employeeIndexAux]
  | cons e rest ih =>
    by_cases h1 : pyTruthy e.getId
    · simp only [employeeIndexAux, if_pos h1]
      rw [ih]
      rw [aget_upsert]
      constructor
      · rintro (hk | hrest)
        · by_cases hq : (some s : Key) = e.getId
          · refine Or.inr ⟨e, List.mem_cons_self e rest, hq.symm, ?_⟩
            rw [← hq] at h1
            exact (pyTruthy_some_true_iff s).mp h1
          · rw [if_neg hq] at hk
            exact Or.inl hk
        · obtain ⟨e', he', hp⟩ := hrest
          exact Or.inr ⟨e', List.mem_cons_of_mem e he', hp⟩
      · rintro (hk | ⟨e', he', hid, hs⟩)
        · by_cases hq : (some s : Key) = e.getId
          · rw [if_pos hq]; exact Or.inl rfl
          · rw [if_neg hq]; exact Or.inl hk
        · rcases List.mem_cons.mp he' with rfl | he''
          · rw [if_pos hid.symm]
            exact Or.inl rfl
          · exact Or.inr ⟨e', he'', hid, hs⟩
    · simp only [employeeIndexAux, if_neg h1]
      rw [ih]
      constructor
      · rintro (hk | hrest)
        · exact Or.inl hk
        · obtain ⟨e', he', hp⟩ := hrest
          exact Or.inr ⟨e', List.mem_cons_of_mem e he', hp⟩
      · rintro (hk | ⟨e', he', hid, hs⟩)
        · exact Or.inl hk
        · rcases List.mem_cons.mp he' with rfl | he''
          · rw [hid, pyTruthy_some_true_iff] at h1
            exact absurd hs h1
          · exact Or.inr ⟨e', he'', hid, hs⟩

/-- C7 counterexample: a record lacking the `id` key makes
`build_org_hierarchy` raise `KeyError('id')` at the index-building
comprehension — it is not silently dropped. -/
theorem C7_counterexample :
    builtError (build_org_hierarchy [empNoId] none noSettings)
      = some (.keyError "id") := by decide

/-- C7 amended: `collect_missing_manager_records` tolerates records
lacking `id` (its index keeps exactly the truthy ids), but
`build_org_hierarchy` raises `KeyError` on any record lacking the `id`
key instead of dropping it. -/
theorem C7_theorem (emps : List Emp) (ov : Option String) (st : Settings) :
    ((∃ e ∈ emps, e.hasId = false) →
      build_org_hierarchy emps ov st = .error (.keyError "id"))
    ∧ ∀ s : String, (aget (employeeIndex emps) (some s)).isSome = true
        ↔ ∃ e ∈ emps, e.getId = some s ∧ s ≠ "" := by
  constructor
  · intro h
    have hne : emps.isEmpty = false := by
      obtain ⟨e, he, _⟩ := h
      cases emps with
      | nil => cases he
      | cons a l => rfl
    have hinit : initEmpDict emps = .error (.keyError "id") :=
      initEmpDictAux_error emps [] h
    simp only [build_org_hierarchy, hne, Bool.false_eq_true, if_false, hinit,
      Bind.bind, Except.bind]
  · intro s
    have h := employeeIndexAux_mem emps [] s
    simpa [employeeIndex, aget] using h

/-- Witness for C7 at a concrete input. -/
theorem C7_witness :
    build_org_hierarchy [empNoId] none noSettings = .error (.keyError "id") :=
  (C7_theorem [empNoId] none noSettings).1
    ⟨empNoId, List.mem_singleton.mpr rfl, rfl⟩
/-! ## C6 — `null` only for the empty input -/

/-- A record carrying the three keys that `build_org_hierarchy` reads
with raising indexing (`id`, `managerId`, and `name` in its logging). -/
def wellFormed (e : Emp) : Bool := e.hasId && e.hasManagerId && e.hasName

theorem isSome_eq_of_dataAt {d1 d2 : Dict} {k : Key}
    (h : dataAt d1 k = dataAt d2 k) :
    (aget d1 k).isSome = (aget d2 k).isSome := by
  simp only [dataAt] at h
  cases h1 : aget d1 k <;> cases h2 : aget d2 k <;> rw [h1, h2] at h <;>
    simp_all

theorem initEmpDictAux_ok (l : List Emp) (d : Dict)
    (h : ∀ e ∈ l, e.hasId = true) : ∃ d', initEmpDictAux d l = .ok d' := by
  induction l generalizing d with
  | nil => exact ⟨d, rfl⟩
  | cons e rest ih =>
    have h1 := h e (List.mem_cons_self e rest)
    simp only [initEmpDictAux, h1, if_true]
    exact ih _ fun e' he' => h e' (List.mem_cons_of_mem e he')

theorem initEmpDictAux_provenance (l : List Emp) (d0 d : Dict)
    (h : initEmpDictAux d0 l = .ok d) (k : Key) (nd : Node)
    (hag : aget d k = some nd) :
    aget d0 k = some nd ∨ ∃ e ∈ l, nd = ⟨e, []⟩ := by
  induction l generalizing d0 with
  | nil => cases h; exact Or.inl hag
  | cons e rest ih =>
    simp only [initEmpDictAux] at h
    by_cases h1 : e.hasId
    · rw [if_pos h1] at h
      rcases ih _ h with hup | ⟨e', he', hnd⟩
      · rw [aget_upsert] at hup
        by_cases hk : k = e.id
        · rw [if_pos hk] at hup
          exact Or.inr ⟨e, List.mem_cons_self e rest,
            (Option.some_inj.mp hup).symm⟩
        · rw [if_neg hk] at hup
          exact Or.inl hup
      · exact Or.inr ⟨e', List.mem_cons_of_mem e he', hnd⟩
    · rw [if_neg h1] at h
      exact Except.noConfusion h

theorem initEmpDictAux_presence (l : List Emp) (d0 d : Dict)
    (h : initEmpDictAux d0 l = .ok d) (k : Key)
    (hk : (aget d0 k).isSome = true ∨ ∃ e ∈ l, e.id = k) :
    (aget d k).isSome = true := by
  induction l generalizing d0 with
  | nil =>
    cases h
    rcases hk with hk | ⟨e, he, _⟩
    · exact hk
    · cases he
  | cons e rest ih =>
    simp only [initEmpDictAux] at h
    by_cases h1 : e.hasId
    · rw [if_pos h1] at h
      refine ih _ h ?_
      rcases hk with hk | ⟨e', he', hid⟩
      · left
        rw [aget_upsert]
        by_cases hke : k = e.id <;> simp [hke, hk]
      · rcases List.mem_cons.mp he' with rfl | he''
        · left
          rw [aget_upsert, if_pos hid.symm]
          rfl
        · right
          exact ⟨e', he'', hid⟩
    · rw [if_neg h1] at h
      exact Except.noConfusion h

theorem dataFrom_initEmpDict (emps : List Emp) (d : Dict)
    (h : initEmpDict emps = .ok d) (k : Key) (nd : Node)
    (hag : aget d k = some nd) : ∃ e ∈ emps, nd.data = e := by
  rcases initEmpDictAux_provenance emps [] d h k nd hag with h0 | ⟨e, he, hnd⟩
  · exact absurd h0 (by simp [aget])
  · exact ⟨e, he, by rw [hnd]⟩

theorem dataFrom_of_dataAt (emps : List Emp) (d1 d2 : Dict)
    (hpres : ∀ k, dataAt d2 k = dataAt d1 k)
    (hfrom : ∀ k nd, aget d1 k = some nd → ∃ e ∈ emps, nd.data = e)
    (k : Key) (nd : Node) (hag : aget d2 k = some nd) :
    ∃ e ∈ emps, nd.data = e := by
  have h := hpres k
  simp only [dataAt, hag] at h
  cases h1 : aget d1 k with
  | none => rw [h1] at h; simp at h
  | some nd1 =>
    rw [h1] at h
    simp only [Option.map_some', Option.some_inj] at h
    obtain ⟨e, he, hd⟩ := hfrom k nd1 h1
    exact ⟨e, he, by rw [h, hd]⟩

theorem configuredEdgesAux_ok (rk : Key) (l : List Emp) (d : Dict)
    (h : ∀ e ∈ l, e.hasId = true ∧ e.hasManagerId = true) :
    ∃ d', configuredEdgesAux rk d l = .ok d' := by
  induction l generalizing d with
  | nil => exact ⟨d, rfl⟩
  | cons e rest ih =>
    obtain ⟨h1, h2⟩ := h e (List.mem_cons_self e rest)
    have hrest := fun e' he' => h e' (List.mem_cons_of_mem e he')
    simp only [configuredEdgesAux]
    by_cases hk : e.id = rk
    · rw [if_neg (by simp [h1]), if_pos hk]
      exact ih _ hrest
    · rw [if_neg (by simp [h1]), if_neg hk, if_neg (by simp [h2])]
      exact ih _ hrest

theorem autoFoldAux_ok (l : List Emp) (acc : Dict × List Key)
    (h : ∀ e ∈ l, e.hasId = true ∧ e.hasManagerId = true) :
    ∃ acc', autoFoldAux acc l = .ok acc' := by
  induction l generalizing acc with
  | nil => exact ⟨acc, rfl⟩
  | cons e rest ih =>
    obtain ⟨h1, h2⟩ := h e (List.mem_cons_self e rest)
    have hrest := fun e' he' => h e' (List.mem_cons_of_mem e he')
    have hstep : ∃ acc1, autoStep acc e = .ok acc1 := by
      simp only [autoStep]
      rw [if_neg (by simp [h1]), if_neg (by simp [h2])]
      by_cases h3 : pyTruthy e.managerId = true
      · rw [if_pos h3]; exact ⟨_, rfl⟩
      · rw [if_neg h3]; exact ⟨_, rfl⟩
    obtain ⟨acc1, hs⟩ := hstep
    obtain ⟨acc', hrec⟩ := ih acc1 hrest
    refine ⟨acc', ?_⟩
    simp only [autoFoldAux, hs, Bind.bind, Except.bind]
    exact hrec

theorem mostReportsAux_provenance (d : Dict) (accN : Nat) (accK : Option Key)
    (k : Key) (h : (mostReportsAux (accN, accK) d).2 = some k) :
    accK = some k ∨ ∃ p ∈ d, p.1 = k := by
  induction d generalizing accN accK with
  | nil => exact Or.inl h
  | cons p rest ih =>
    simp only [mostReportsAux] at h
    by_cases hgt : p.2.children.length > accN
    · rw [if_pos hgt] at h
      rcases ih _ _ h with h0 | ⟨p', hp', hk⟩
      · injection h0 with h0'
        exact Or.inr ⟨p, List.mem_cons_self p rest, h0'⟩
      · exact Or.inr ⟨p', List.mem_cons_of_mem p hp', hk⟩
    · rw [if_neg hgt] at h
      rcases ih _ _ h with h0 | ⟨p', hp', hk⟩
      · exact Or.inl h0
      · exact Or.inr ⟨p', List.mem_cons_of_mem p hp', hk⟩

theorem aget_isSome_of_mem (d : Dict) (p : Key × Node) (hp : p ∈ d) :
    (aget d p.1).isSome = true := by
  induction d with
  | nil => cases hp
  | cons q rest ih =>
    rcases List.mem_cons.mp hp with rfl | hp'
    · simp [aget]
    · by_cases hq : q.1 = p.1 <;> simp [aget, hq, ih hp']
theorem wellFormed_spec (e : Emp) (h : wellFormed e = true) :
    e.hasId = true ∧ e.hasManagerId = true ∧ e.hasName = true := by
  simp only [wellFormed, Bool.and_eq_true] at h
  exact ⟨h.1.1, h.1.2, h.2⟩

theorem configuredRootKey_ok (emps : List Emp) (d : Dict) (ov : Option String)
    (st : Settings) (hWF : ∀ e ∈ emps, wellFormed e = true)
    (hfrom : ∀ k nd, aget d k = some nd → ∃ e ∈ emps, nd.data = e)
    (hpres : ∀ e ∈ emps, (aget d e.id).isSome = true) :
    ∃ r, configuredRootKey emps d ov st = .ok r := by
  simp only [configuredRootKey]
  cases hte : topUserEmailOf ov st with
  | none =>
    by_cases hsid : pyStrip (st.topLevelUserId.getD "") ≠ ""
    · cases hag : aget d (some (pyStrip (st.topLevelUserId.getD ""))) with
      | none => exact ⟨none, by simp [hsid, hag]⟩
      | some nd =>
        obtain ⟨e', he', hd⟩ := hfrom _ nd hag
        have hn : nd.data.hasName = true := by
          rw [hd]; exact (wellFormed_spec e' (hWF e' he')).2.2
        exact ⟨some (some (pyStrip (st.topLevelUserId.getD ""))),
          by simp [hsid, hag, hn]⟩
    · exact ⟨none, by simp [hsid]⟩
  | some t =>
    cases hfind : emps.find? (fun e => e.email = some t) with
    | none =>
      by_cases hsid : pyStrip (st.topLevelUserId.getD "") ≠ ""
      · cases hag : aget d (some (pyStrip (st.topLevelUserId.getD ""))) with
        | none => exact ⟨none, by simp [hfind, hsid, hag]⟩
        | some nd =>
          obtain ⟨e', he', hd⟩ := hfrom _ nd hag
          have hn : nd.data.hasName = true := by
            rw [hd]; exact (wellFormed_spec e' (hWF e' he')).2.2
          exact ⟨some (some (pyStrip (st.topLevelUserId.getD ""))),
            by simp [hfind, hsid, hag, hn]⟩
      · exact ⟨none, by simp [hfind, hsid]⟩
    | some e =>
      have he : e ∈ emps := List.mem_of_find?_eq_some hfind
      have h1 : e.hasId = true := (wellFormed_spec e (hWF e he)).1
      have hpr := hpres e he
      cases hag : aget d e.id with
      | none => rw [hag] at hpr; exact Bool.noConfusion hpr
      | some nd =>
        obtain ⟨e', he', hd⟩ := hfrom _ nd hag
        have hn : nd.data.hasName = true := by
          rw [hd]; exact (wellFormed_spec e' (hWF e' he')).2.2
        exact ⟨some e.id, by simp [hfind, h1, hag, hn]⟩

theorem buildAuto_ok (emps : List Emp) (d0 : Dict) (hne : emps ≠ [])
    (hWF : ∀ e ∈ emps, wellFormed e = true)
    (hfrom : ∀ k nd, aget d0 k = some nd → ∃ e ∈ emps, nd.data = e)
    (hpres : ∀ e ∈ emps, (aget d0 e.id).isSome = true) :
    ∃ d k, buildAuto emps d0 = .ok (some (d, k)) := by
  obtain ⟨⟨d, cands⟩, hfold⟩ := autoFoldAux_ok emps (d0, []) fun e he => by
    have h := wellFormed_spec e (hWF e he)
    exact ⟨h.1, h.2.1⟩
  have hdata : ∀ k, dataAt d k = dataAt d0 k := fun k =>
    dataAt_autoFoldAux emps (d0, []) (d, cands) hfold k
  have hfrom' : ∀ k nd, aget d k = some nd → ∃ e ∈ emps, nd.data = e :=
    dataFrom_of_dataAt emps d0 d hdata hfrom
  have hpres' : ∀ e ∈ emps, (aget d e.id).isSome = true := fun e he => by
    rw [isSome_eq_of_dataAt (hdata e.id)]
    exact hpres e he
  simp only [buildAuto, hfold, Bind.bind, Except.bind]
  by_cases hc : cands ≠ []
  · rw [if_pos hc]
    cases hfind : cands.find? (candHasKeyword d) with
    | some k => exact ⟨d, k, rfl⟩
    | none =>
      cases hh : cands.head? with
      | some k => exact ⟨d, k, rfl⟩
      | none => exact absurd (List.head?_eq_none_iff.mp hh) hc
  · rw [if_neg hc]
    cases hmr : (mostReportsAux (0, none) d).2 with
    | some k =>
      have hmem : ∃ p ∈ d, p.1 = k := by
        rcases mostReportsAux_provenance d 0 none k hmr with h0 | h
        · exact Option.noConfusion h0
        · exact h
      obtain ⟨p, hp, rfl⟩ := hmem
      have hag := aget_isSome_of_mem d p hp
      cases hag2 : aget d p.1 with
      | none => rw [hag2] at hag; exact Bool.noConfusion hag
      | some nd =>
        obtain ⟨e', he', hd⟩ := hfrom' _ nd hag2
        have hn : nd.data.hasName = true := by
          rw [hd]; exact (wellFormed_spec e' (hWF e' he')).2.2
        exact ⟨d, p.1, by simp [hag2, hn]⟩
    | none =>
      cases emps with
      | nil => exact absurd rfl hne
      | cons e0 rest =>
        have h1 : e0.hasId = true :=
          (wellFormed_spec e0 (hWF e0 (List.mem_cons_self e0 rest))).1
        have hpr := hpres' e0 (List.mem_cons_self e0 rest)
        cases hag : aget d e0.id with
        | none => rw [hag] at hpr; exact Bool.noConfusion hpr
        | some nd => exact ⟨d, e0.id, by simp [h1, hag]⟩

theorem build_ok (emps : List Emp) (ov : Option String) (st : Settings)
    (hne : emps ≠ []) (hWF : ∀ e ∈ emps, wellFormed e = true) :
    ∃ d k, build_org_hierarchy emps ov st = .ok (some (d, k)) := by
  have hne' : emps.isEmpty = false := by
    cases emps with
    | nil => exact absurd rfl hne
    | cons a l => rfl
  obtain ⟨d0, hinit⟩ := initEmpDictAux_ok emps [] fun e he =>
    (wellFormed_spec e (hWF e he)).1
  have hinit' : initEmpDict emps = .ok d0 := hinit
  have hfrom := dataFrom_initEmpDict emps d0 hinit'
  have hpres : ∀ e ∈ emps, (aget d0 e.id).isSome = true := fun e he =>
    initEmpDictAux_presence emps [] d0 hinit e.id (Or.inr ⟨e, he, rfl⟩)
  obtain ⟨r, hcfg⟩ := configuredRootKey_ok emps d0 ov st hWF hfrom hpres
  simp only [build_org_hierarchy, hne', Bool.false_eq_true, if_false, hinit',
    hcfg, Bind.bind, Except.bind]
  cases r with
  | some rk =>
    obtain ⟨d2, hedges⟩ := configuredEdgesAux_ok rk emps
      (mapNodeAt d0 rk clearManagerId)
      fun e he => ⟨(wellFormed_spec e (hWF e he)).1,
        (wellFormed_spec e (hWF e he)).2.1⟩
    simp only [buildConfigured, hedges, Bind.bind, Except.bind]
    exact ⟨_, rk, rfl⟩
  | none => exact buildAuto_ok emps d0 hne hWF hfrom hpres

/-- C6: `build_org_hierarchy` returns `null` exactly for the empty
employee list — every non-empty (well-formed) list yields a root — and
`collect_missing_manager_records` on the empty list returns `[]`. -/
theorem C6_theorem (emps : List Emp) (ov : Option String) (st : Settings)
    (hWF : ∀ e ∈ emps, wellFormed e = true) :
    (build_org_hierarchy emps ov st = .ok none ↔ emps = [])
    ∧ (emps ≠ [] → ∃ d k, build_org_hierarchy emps ov st = .ok (some (d, k)))
    ∧ ∀ (hroot : Option (Dict × Key)) (st' : Settings) (ov' : Option String),
        collect_missing_manager_records [] hroot st' ov' = [] := by
  refine ⟨⟨fun h => ?_, fun h => by rw [h]; rfl⟩,
    fun hne => build_ok emps ov st hne hWF, fun _ _ _ => rfl⟩
  by_contra hne
  obtain ⟨d, k, hb⟩ := build_ok emps ov st hne hWF
  rw [h] at hb
  injection hb with hb'
  exact Option.noConfusion hb'

/-- Witness for C6 at a concrete input. -/
theorem C6_witness :
    (build_org_hierarchy [empCeo] none noSettings = .ok none
       ↔ ([empCeo] : List Emp) = [])
    ∧ (([empCeo] : List Emp) ≠ [] →
        ∃ d k, build_org_hierarchy [empCeo] none noSettings
          = .ok (some (d, k)))
    ∧ ∀ (hroot : Option (Dict × Key)) (st' : Settings) (ov' : Option String),
        collect_missing_manager_records [] hroot st' ov' = [] :=
  C6_theorem [empCeo] none noSettings (by decide)
/-! ## C4 — the collector's classification order -/

/-- C4: for an employee skipped neither as the root nor by the top-user
exemption, the collector classifies in order — falsy `managerId` →
`no_manager`; set but absent from the index → `manager_not_found`;
resolving but unvisited → `detached`; otherwise no record — and a
non-empty `filterReasons` list overrides the user-facing `reason` to
`filtered` while `missingReason` keeps the structural class.  The final
conjunct ties the per-employee emitter to
`collect_missing_manager_records` itself. -/
theorem C4_theorem (idx : List (Key × Emp)) (visited rootIds : List String)
    (tue : Option String) (e : Emp)
    (hskip1 : skipAsRoot rootIds e = false)
    (hskip2 : skipAsTopUser tue e = false) :
    (pyTruthy e.getManagerId = false →
      ∃ r, emitFor idx visited rootIds tue e = some r
        ∧ r.missingReason = "no_manager")
    ∧ (∀ m, e.getManagerId = some m → m ≠ "" → aget idx (some m) = none →
        ∃ r, emitFor idx visited rootIds tue e = some r
          ∧ r.missingReason = "manager_not_found")
    ∧ (∀ m, e.getManagerId = some m → m ≠ "" →
        (aget idx (some m)).isSome = true →
        visitedMem visited e.getId = false →
        ∃ r, emitFor idx visited rootIds tue e = some r
          ∧ r.missingReason = "detached")
    ∧ (∀ m, e.getManagerId = some m → m ≠ "" →
        (aget idx (some m)).isSome = true →
        visitedMem visited e.getId = true →
        emitFor idx visited rootIds tue e = none)
    ∧ (∀ r, emitFor idx visited rootIds tue e = some r →
        (e.filterReasons ≠ [] → r.reason = "filtered")
        ∧ (e.filterReasons = [] → r.reason = r.missingReason))
    ∧ (∀ (emps : List Emp) (hroot : Option (Dict × Key)) (st : Settings)
        (ov : Option String),
        collect_missing_manager_records emps hroot st ov
          = if emps.isEmpty then []
            else stableSort recLt (emps.filterMap
              (emitFor (employeeIndex emps) (visitedOf hroot)
                (rootIdsOf hroot) (effTopUserEmail st ov)))) := by
  refine ⟨?_, ?_, ?_, ?_, ?_, fun _ _ _ _ => rfl⟩
  · intro hm
    simp only [emitFor, hskip1, hskip2, classifyMissing, hm, Bool.false_eq_true,
      not_false_iff, if_true, if_false, Bool.false_eq_true]
    exact ⟨_, rfl, rfl⟩
  · intro m hm hm0 hidx
    have ht : pyTruthy (some m) = true := (pyTruthy_some_true_iff m).mpr hm0
    simp only [emitFor, hskip1, hskip2, classifyMissing, hm, ht, hidx,
      Bool.false_eq_true, not_true, if_false, Option.isNone_none, if_true]
    exact ⟨_, rfl, rfl⟩
  · intro m hm hm0 hidx hvis
    have ht : pyTruthy (some m) = true := (pyTruthy_some_true_iff m).mpr hm0
    have hidx' : (aget idx (some m)).isNone = false := by
      cases h : aget idx (some m) with
      | none => rw [h] at hidx; exact Bool.noConfusion hidx
      | some v => rfl
    simp only [emitFor, hskip1, hskip2, classifyMissing, hm, ht, hidx', hvis,
      Bool.false_eq_true, not_true, if_false, if_true]
    exact ⟨_, rfl, rfl⟩
  · intro m hm hm0 hidx hvis
    have ht : pyTruthy (some m) = true := (pyTruthy_some_true_iff m).mpr hm0
    have hidx' : (aget idx (some m)).isNone = false := by
      cases h : aget idx (some m) with
      | none => rw [h] at hidx; exact Bool.noConfusion hidx
      | some v => rfl
    simp [emitFor, hskip1, hskip2, classifyMissing, hm, ht, hidx', hvis]
  · intro r hr
    simp only [emitFor, hskip1, hskip2, Bool.false_eq_true, if_false] at hr
    cases hcl : classifyMissing idx visited e with
    | none => rw [hcl] at hr; exact Option.noConfusion hr
    | some reason =>
      rw [hcl] at hr
      injection hr with hr'
      constructor
      · intro hf
        rw [← hr']
        simp [hf]
      · intro hf
        rw [← hr']
        simp [hf]

/-- Witness for C4 at a concrete input: `empGhost` against an empty index
is classified `manager_not_found`. -/
theorem C4_witness :
    ∃ r, emitFor [] [] [] none empGhost = some r
      ∧ r.missingReason = "manager_not_found" :=
  (C4_theorem [] [] [] none empGhost rfl rfl).2.1 "ghost" rfl
    (by decide) rfl
/-! ## C8 — sortedness and stability of the report order -/

theorem charLt_irrefl (a : Char) : charLt a a = false := by simp [charLt]

theorem charLt_asymm {a b : Char} (h : charLt a b = true) :
    charLt b a = false := by
  simp only [charLt, decide_eq_true_eq] at h
  simp only [charLt, decide_eq_false_iff_not, not_lt]
  exact Nat.le_of_lt h

theorem charLt_connex {a b : Char} (h1 : charLt a b = false)
    (h2 : charLt b a = false) : a = b := by
  simp only [charLt, decide_eq_false_iff_not, not_lt] at h1 h2
  have h : a.toNat = b.toNat := Nat.le_antisymm h2 h1
  exact Char.ext (UInt32.ext h)

theorem charLt_trans {a b c : Char} (h1 : charLt a b = true)
    (h2 : charLt b c = true) : charLt a c = true := by
  simp only [charLt, decide_eq_true_eq] at *
  exact Nat.lt_trans h1 h2

theorem charsLt_irrefl (a : List Char) : charsLt a a = false := by
  induction a with
  | nil => rfl
  | cons x xs ih => simp [charsLt, charLt_irrefl, ih]

theorem charsLt_connex : ∀ {a b : List Char}, charsLt a b = false →
    charsLt b a = false → a = b
  | [], [], _, _ => rfl
  | [], _ :: _, h1, _ => by simp [charsLt] at h1
  | _ :: _, [], _, h2 => by simp [charsLt] at h2
  | x :: xs, y :: ys, h1, h2 => by
    by_cases hxy : charLt x y = true
    · simp [charsLt, hxy] at h1
    by_cases hyx : charLt y x = true
    · simp [charsLt, hyx] at h2
    have hx : x = y :=
      charLt_connex (Bool.eq_false_iff.mpr hxy) (Bool.eq_false_iff.mpr hyx)
    subst hx
    simp only [charsLt, charLt_irrefl, if_false, Bool.false_eq_true] at h1 h2
    rw [charsLt_connex h1 h2]

theorem charsLt_trans : ∀ {a b c : List Char}, charsLt a b = true →
    charsLt b c = true → charsLt a c = true
  | [], [], _, h1, _ => by simp [charsLt] at h1
  | _, _ :: _, [], _, h2 => by simp [charsLt] at h2
  | [], b0 :: bs, c0 :: cs, _, _ => by simp [charsLt]
  | a0 :: as, [], _, h1, _ => by simp [charsLt] at h1
  | x :: xs, y :: ys, z :: zs, h1, h2 => by
    by_cases hxy : charLt x y = true
    · by_cases hyz : charLt y z = true
      · simp [charsLt, charLt_trans hxy hyz]
      by_cases hzy : charLt z y = true
      · simp [charsLt, hyz, hzy] at h2
      have hy : y = z :=
        charLt_connex (Bool.eq_false_iff.mpr hyz) (Bool.eq_false_iff.mpr hzy)
      subst hy
      simp [charsLt, hxy]
    · by_cases hyx : charLt y x = true
      · simp [charsLt, hxy, hyx] at h1
      have hx : x = y :=
        charLt_connex (Bool.eq_false_iff.mpr hxy) (Bool.eq_false_iff.mpr hyx)
      subst hx
      simp only [charsLt, charLt_irrefl, if_false, Bool.false_eq_true] at h1
      by_cases hyz : charLt x z = true
      · simp [charsLt, hyz]
      by_cases hzy : charLt z x = true
      · simp [charsLt, hzy] at h2
        simp [charsLt, hyz, hzy] at h2
      have hz : x = z :=
        charLt_connex (Bool.eq_false_iff.mpr hyz) (Bool.eq_false_iff.mpr hzy)
      subst hz
      simp only [charsLt, charLt_irrefl, if_false, Bool.false_eq_true] at h2 ⊢
      exact charsLt_trans h1 h2

theorem strLt_irrefl (a : String) : strLt a a = false := charsLt_irrefl a.data

theorem strLt_connex {a b : String} (h1 : strLt a b = false)
    (h2 : strLt b a = false) : a = b :=
  String.ext (charsLt_connex h1 h2)

theorem strLt_trans {a b c : String} (h1 : strLt a b = true)
    (h2 : strLt b c = true) : strLt a c = true :=
  charsLt_trans h1 h2

theorem pairLt_irrefl (k : String × String) : pairLt k k = false := by
  simp [pairLt, strLt_irrefl]

theorem pairLt_trans {a b c : String × String} (h1 : pairLt a b = true)
    (h2 : pairLt b c = true) : pairLt a c = true := by
  simp only [pairLt, Bool.or_eq_true, Bool.and_eq_true, decide_eq_true_eq]
    at h1 h2 ⊢
  rcases h1 with h1 | ⟨h1e, h1n⟩ <;> rcases h2 with h2 | ⟨h2e, h2n⟩
  · exact Or.inl (strLt_trans h1 h2)
  · exact Or.inl (h2e ▸ h1)
  · exact Or.inl (h1e ▸ h2)
  · exact Or.inr ⟨h1e.trans h2e, strLt_trans h1n h2n⟩

theorem pairLt_asymm {a b : String × String} (h : pairLt a b = true) :
    pairLt b a = false := by
  by_contra hc
  have h2 : pairLt b a = true := Bool.not_eq_false _ ▸ hc
  have := pairLt_trans h h2
  rw [pairLt_irrefl] at this
  exact Bool.noConfusion this

theorem pairLt_connex {a b : String × String} (h1 : pairLt a b = false)
    (h2 : pairLt b a = false) : a = b := by
  simp only [pairLt, Bool.or_eq_false_iff, Bool.and_eq_false_iff] at h1 h2
  by_cases se : a.1 = b.1
  · have hn1 : strLt a.2 b.2 = false := by
      rcases h1.2 with h | h
      · rw [decide_eq_false_iff_not] at h; exact absurd se h
      · exact h
    have hn2 : strLt b.2 a.2 = false := by
      rcases h2.2 with h | h
      · rw [decide_eq_false_iff_not] at h; exact absurd se.symm h
      · exact h
    exact Prod.ext se (strLt_connex hn1 hn2)
  · exact absurd (strLt_connex h1.1 h2.1) se
theorem recLt_trans {a b c : MissingRecord} (h1 : recLt a b = true)
    (h2 : recLt b c = true) : recLt a c = true := pairLt_trans h1 h2

theorem recLt_asymm {a b : MissingRecord} (h : recLt a b = true) :
    recLt b a = false := pairLt_asymm h

theorem mem_stableInsert {α : Type} (lt : α → α → Bool) (a x : α) :
    ∀ l : List α, x ∈ stableInsert lt a l ↔ x = a ∨ x ∈ l
  | [] => by simp [stableInsert]
  | b :: l => by
    simp only [stableInsert]
    by_cases h : lt a b = true
    · simp only [if_pos h, List.mem_cons]
    · simp only [if_neg h, List.mem_cons, mem_stableInsert lt a x l]
      tauto

theorem pairwise_stableInsert (a : MissingRecord) :
    ∀ l : List MissingRecord, (l.Pairwise fun x y => recLt y x = false) →
      ((stableInsert recLt a l).Pairwise fun x y => recLt y x = false)
  | [], _ => by simp [stableInsert]
  | b :: l, hp => by
    obtain ⟨hb, hl⟩ := List.pairwise_cons.mp hp
    simp only [stableInsert]
    by_cases hab : recLt a b = true
    · rw [if_pos hab]
      refine List.pairwise_cons.mpr ⟨?_, hp⟩
      intro y hy
      rcases List.mem_cons.mp hy with rfl | hy'
      · exact recLt_asymm hab
      · by_contra hc
        have h1 : recLt y a = true := Bool.not_eq_false _ ▸ hc
        have h2 := recLt_trans h1 hab
        rw [hb y hy'] at h2
        exact Bool.noConfusion h2
    · rw [if_neg hab]
      refine List.pairwise_cons.mpr ⟨?_, pairwise_stableInsert a l hl⟩
      intro y hy
      rcases (mem_stableInsert recLt a y l).mp hy with rfl | hy'
      · exact Bool.eq_false_iff.mpr hab
      · exact hb y hy'

theorem filter_stableInsert (key : String × String) (a : MissingRecord) :
    ∀ l : List MissingRecord, (l.Pairwise fun x y => recLt y x = false) →
      (stableInsert recLt a l).filter (fun r => decide (sortKey r = key))
        = if sortKey a = key
          then l.filter (fun r => decide (sortKey r = key)) ++ [a]
          else l.filter (fun r => decide (sortKey r = key))
  | [], _ => by by_cases hk : sortKey a = key <;> simp [stableInsert, hk]
  | b :: l, hp => by
    obtain ⟨hb, hl⟩ := List.pairwise_cons.mp hp
    simp only [stableInsert]
    by_cases hab : recLt a b = true
    · rw [if_pos hab]
      by_cases hk : sortKey a = key
      · have hbk : ¬sortKey b = key := by
          intro hbk
          have heq : recLt a b = pairLt key key := by
            unfold recLt
            rw [hk, hbk]
          rw [pairLt_irrefl] at heq
          rw [heq] at hab
          exact Bool.noConfusion hab
        have hlk : ∀ y ∈ l, ¬sortKey y = key := by
          intro y hy hyk
          have h1 : recLt y b = false := hb y hy
          have h2 : recLt y b = recLt a b := by
            unfold recLt
            rw [hyk, hk]
          rw [h2, hab] at h1
          exact Bool.noConfusion h1
        have hfl : l.filter (fun r => decide (sortKey r = key)) = [] := by
          rw [List.filter_eq_nil_iff]
          intro y hy
          simp [hlk y hy]
        simp [List.filter_cons, hk, hbk, hfl]
      · simp [List.filter_cons, hk]
    · rw [if_neg hab]
      rw [List.filter_cons, filter_stableInsert key a l hl]
      by_cases hbk : sortKey b = key <;> by_cases hk : sortKey a = key <;>
        simp [List.filter_cons, hbk, hk]

theorem pairwise_stableSortAux :
    ∀ l acc : List MissingRecord,
      (acc.Pairwise fun x y => recLt y x = false) →
      ((l.foldl (fun acc a => stableInsert recLt a acc) acc).Pairwise
        fun x y => recLt y x = false)
  | [], _, h => h
  | a :: l, acc, h =>
    pairwise_stableSortAux l _ (pairwise_stableInsert a acc h)

theorem filter_stableSortAux (key : String × String) :
    ∀ l acc : List MissingRecord,
      (acc.Pairwise fun x y => recLt y x = false) →
      (l.foldl (fun acc a => stableInsert recLt a acc) acc).filter
          (fun r => decide (sortKey r = key))
        = acc.filter (fun r => decide (sortKey r = key))
          ++ l.filter (fun r => decide (sortKey r = key))
  | [], acc, _ => by simp
  | a :: l, acc, h => by
    rw [List.foldl_cons,
      filter_stableSortAux key l _ (pairwise_stableInsert a acc h),
      filter_stableInsert key a acc h, List.filter_cons]
    by_cases hk : sortKey a = key <;> simp [hk]

/-- C8: the report of `collect_missing_manager_records` is sorted
ascending by the `(department, name)` pair under case-sensitive
code-point comparison (null fields as empty strings), and the sort is
stable: restricted to any fixed sort key, the output equals the
unsorted, input-ordered record sequence. -/
theorem C8_theorem (emps : List Emp) (hroot : Option (Dict × Key))
    (st : Settings) (ov : Option String) :
    ((collect_missing_manager_records emps hroot st ov).Pairwise
      fun x y => recLt y x = false)
    ∧ ∀ key : String × String,
        (collect_missing_manager_records emps hroot st ov).filter
            (fun r => decide (sortKey r = key))
          = (emps.filterMap
              (emitFor (employeeIndex emps) (visitedOf hroot)
                (rootIdsOf hroot) (effTopUserEmail st ov))).filter
              (fun r => decide (sortKey r = key)) := by
  constructor
  · unfold collect_missing_manager_records
    by_cases he : emps.isEmpty
    · simp [he]
    · rw [if_neg he]
      exact pairwise_stableSortAux _ [] List.Pairwise.nil
  · intro key
    unfold collect_missing_manager_records stableSort
    by_cases he : emps.isEmpty
    · rw [if_pos he, List.isEmpty_iff.mp he]
      rfl
    · rw [if_neg he, filter_stableSortAux key _ [] List.Pairwise.nil]
      rfl
/-! ## C5 — self-referencing `managerId == id` -/

/-- Every node's `children` list is duplicate-free. -/
def ChildrenNodup (d : Dict) : Prop :=
  ∀ k nd, aget d k = some nd → nd.children.Nodup

/-- The key `some s` occurs as a child only under the node keyed
`some s` itself. -/
def SelfChildOnly (d : Dict) (s : String) : Prop :=
  ∀ k nd, aget d k = some nd → (some s) ∈ nd.children → k = some s

/-- Every node's stored `id` value equals its dict key. -/
def IdKeyed (d : Dict) : Prop :=
  ∀ k nd, aget d k = some nd → nd.data.getId = k

/-- `ck` is a child of the node at `k`. -/
def childMem (d : Dict) (k ck : Key) : Prop :=
  ∃ nd, aget d k = some nd ∧ ck ∈ nd.children

theorem initEmpDictAux_keyed (l : List Emp) (d0 d : Dict)
    (h : initEmpDictAux d0 l = .ok d) (hk0 : IdKeyed d0) : IdKeyed d := by
  induction l generalizing d0 with
  | nil => cases h; exact hk0
  | cons e rest ih =>
    simp only [initEmpDictAux] at h
    by_cases h1 : e.hasId
    · rw [if_pos h1] at h
      refine ih _ h ?_
      intro k nd hag
      rw [aget_upsert] at hag
      by_cases hke : k = e.id
      · rw [if_pos hke] at hag
        injection hag with hag'
        rw [← hag', hke]
        simp [Emp.getId, h1]
      · rw [if_neg hke] at hag
        exact hk0 k nd hag
    · rw [if_neg h1] at h
      exact Except.noConfusion h

theorem initEmpDictAux_children_nil (l : List Emp) (d0 d : Dict)
    (h : initEmpDictAux d0 l = .ok d)
    (h0 : ∀ k nd, aget d0 k = some nd → nd.children = []) :
    ∀ k nd, aget d k = some nd → nd.children = [] := by
  intro k nd hag
  rcases initEmpDictAux_provenance l d0 d h k nd hag with hup | ⟨e, _, hnd⟩
  · exact h0 k nd hup
  · rw [hnd]

theorem childMem_appendChild_mono (d : Dict) (k0 ck0 k ck : Key)
    (h : childMem d k ck) : childMem (appendChild d k0 ck0) k ck := by
  obtain ⟨nd, hag, hmem⟩ := h
  simp only [childMem, appendChild, aget_mapNodeAt]
  by_cases hk : k = k0
  · rw [if_pos hk, hag]
    by_cases hc : ck0 ∈ nd.children
    · exact ⟨nd, by simp [hc], hmem⟩
    · refine ⟨{ nd with children := nd.children ++ [ck0] }, by simp [hc], ?_⟩
      simp only [List.mem_append]
      exact Or.inl hmem
  · rw [if_neg hk]
    exact ⟨nd, hag, hmem⟩

theorem childMem_appendChild_self (d : Dict) (k ck : Key)
    (h : (aget d k).isSome = true) : childMem (appendChild d k ck) k ck := by
  cases hag : aget d k with
  | none => rw [hag] at h; exact Bool.noConfusion h
  | some nd =>
    simp only [childMem, appendChild, aget_mapNodeAt, if_pos rfl, hag]
    by_cases hc : ck ∈ nd.children
    · exact ⟨nd, by simp [hc], hc⟩
    · refine ⟨{ nd with children := nd.children ++ [ck] }, by simp [hc], ?_⟩
      simp

theorem childMem_addChildEdge_mono (d : Dict) (f : Emp) (k ck : Key)
    (h : childMem d k ck) : childMem (addChildEdge d f) k ck := by
  unfold addChildEdge
  by_cases hc : pyTruthy f.managerId ∧ (aget d f.managerId).isSome
  · rw [if_pos hc]
    exact childMem_appendChild_mono d _ _ k ck h
  · rw [if_neg hc]
    exact h

theorem childMem_autoStep_mono (acc acc' : Dict × List Key) (f : Emp)
    (hs : autoStep acc f = .ok acc') (k ck : Key)
    (h : childMem acc.1 k ck) : childMem acc'.1 k ck := by
  simp only [autoStep] at hs
  split at hs
  · exact Except.noConfusion hs
  · split at hs
    · exact Except.noConfusion hs
    · split at hs
      · injection hs with hs'
        rw [← hs']
        exact childMem_addChildEdge_mono acc.1 f k ck h
      · injection hs with hs'
        rw [← hs']
        exact h

theorem childMem_autoFoldAux_mono (l : List Emp) (acc acc' : Dict × List Key)
    (hs : autoFoldAux acc l = .ok acc') (k ck : Key)
    (h : childMem acc.1 k ck) : childMem acc'.1 k ck := by
  induction l generalizing acc with
  | nil => cases hs; exact h
  | cons f rest ih =>
    simp only [autoFoldAux] at hs
    cases h1 : autoStep acc f with
    | error err => rw [h1] at hs; exact absurd hs (by simp [Bind.bind, Except.bind])
    | ok acc1 =>
      rw [h1] at hs
      simp only [Bind.bind, Except.bind] at hs
      exact ih acc1 hs (childMem_autoStep_mono acc acc1 f h1 k ck h)
theorem childMem_configuredEdgesAux_mono (l : List Emp) (rk : Key)
    (d d' : Dict) (hs : configuredEdgesAux rk d l = .ok d') (k ck : Key)
    (h : childMem d k ck) : childMem d' k ck := by
  induction l generalizing d with
  | nil => cases hs; exact h
  | cons f rest ih =>
    simp only [configuredEdgesAux] at hs
    split at hs
    · exact Except.noConfusion hs
    · split at hs
      · exact ih _ hs h
      · split at hs
        · exact Except.noConfusion hs
        · exact ih _ hs (childMem_addChildEdge_mono d f k ck h)

theorem autoFoldAux_self_edge (l : List Emp) (acc acc' : Dict × List Key)
    (e : Emp) (s : String) (hs : autoFoldAux acc l = .ok acc') (he : e ∈ l)
    (hid : e.id = some s) (hmid : e.managerId = some s) (hsne : s ≠ "")
    (hpr : (aget acc.1 (some s)).isSome = true) :
    childMem acc'.1 (some s) (some s) := by
  induction l generalizing acc with
  | nil => cases he
  | cons f rest ih =>
    simp only [autoFoldAux] at hs
    cases h1 : autoStep acc f with
    | error err => rw [h1] at hs; exact absurd hs (by simp [Bind.bind, Except.bind])
    | ok acc1 =>
      rw [h1] at hs
      simp only [Bind.bind, Except.bind] at hs
      have hpr1 : (aget acc1.1 (some s)).isSome = true := by
        rw [isSome_eq_of_dataAt (dataAt_autoStep acc acc1 f h1 (some s))]
        exact hpr
      rcases List.mem_cons.mp he with rfl | he'
      · have hmem : childMem acc1.1 (some s) (some s) := by
          simp only [autoStep] at h1
          split at h1
          · exact Except.noConfusion h1
          · split at h1
            · exact Except.noConfusion h1
            · split at h1
              next h3 =>
                injection h1 with h1'
                rw [← h1']
                show childMem (addChildEdge acc.1 e, acc.2).1 (some s) (some s)
                unfold addChildEdge
                rw [hmid]
                rw [if_pos ⟨(pyTruthy_some_true_iff s).mpr hsne, hpr⟩, hid]
                exact childMem_appendChild_self acc.1 (some s) (some s) hpr
              next h3 =>
                exfalso
                rw [hmid] at h3
                exact h3 ((pyTruthy_some_true_iff s).mpr hsne)
        exact childMem_autoFoldAux_mono rest acc1 acc' hs _ _ hmem
      · exact ih acc1 hs he' hpr1

theorem configuredEdgesAux_self_edge (l : List Emp) (rk : Key) (d d' : Dict)
    (e : Emp) (s : String) (hs : configuredEdgesAux rk d l = .ok d')
    (he : e ∈ l) (hid : e.id = some s) (hmid : e.managerId = some s)
    (hsne : s ≠ "") (hrk : rk ≠ some s)
    (hpr : (aget d (some s)).isSome = true) :
    childMem d' (some s) (some s) := by
  induction l generalizing d with
  | nil => cases he
  | cons f rest ih =>
    simp only [configuredEdgesAux] at hs
    split at hs
    · exact Except.noConfusion hs
    · rcases List.mem_cons.mp he with rfl | he'
      · split at hs
        next hkrk => exact absurd (hid ▸ hkrk) (fun h => hrk h.symm)
        next hkrk =>
          split at hs
          · exact Except.noConfusion hs
          · have hmem : childMem (addChildEdge d e) (some s) (some s) := by
              unfold addChildEdge
              rw [hmid]
              rw [if_pos ⟨(pyTruthy_some_true_iff s).mpr hsne, hpr⟩, hid]
              exact childMem_appendChild_self d (some s) (some s) hpr
            exact childMem_configuredEdgesAux_mono rest rk _ d' hs _ _ hmem
      · split at hs
        · exact ih _ hs he' hpr
        · split at hs
          · exact Except.noConfusion hs
          · refine ih _ hs he' ?_
            rw [isSome_eq_of_dataAt (dataAt_addChildEdge d f (some s))]
            exact hpr
theorem nodup_appendChild (d : Dict) (k0 ck : Key) (h : ChildrenNodup d) :
    ChildrenNodup (appendChild d k0 ck) := by
  intro k nd hag
  simp only [appendChild, aget_mapNodeAt] at hag
  by_cases hk : k = k0
  · rw [if_pos hk] at hag
    obtain ⟨nd0, hag0, rfl⟩ := Option.map_eq_some'.mp hag
    by_cases hc : ck ∈ nd0.children
    · rw [if_pos hc]
      exact h k nd0 hag0
    · rw [if_neg hc]
      refine List.Nodup.append (h k nd0 hag0) (List.nodup_singleton ck) ?_
      intro a ha hmem
      rw [List.mem_singleton] at hmem
      subst hmem
      exact hc ha
  · rw [if_neg hk] at hag
    exact h k nd hag

theorem nodup_addChildEdge (d : Dict) (f : Emp) (h : ChildrenNodup d) :
    ChildrenNodup (addChildEdge d f) := by
  unfold addChildEdge
  by_cases hc : pyTruthy f.managerId ∧ (aget d f.managerId).isSome
  · rw [if_pos hc]
    exact nodup_appendChild d _ _ h
  · rw [if_neg hc]
    exact h

theorem nodup_autoStep (acc acc' : Dict × List Key) (f : Emp)
    (hs : autoStep acc f = .ok acc') (h : ChildrenNodup acc.1) :
    ChildrenNodup acc'.1 := by
  simp only [autoStep] at hs
  split at hs
  · exact Except.noConfusion hs
  · split at hs
    · exact Except.noConfusion hs
    · split at hs <;> (injection hs with hs'; rw [← hs'])
      · exact nodup_addChildEdge acc.1 f h
      · exact h

theorem nodup_autoFoldAux (l : List Emp) (acc acc' : Dict × List Key)
    (hs : autoFoldAux acc l = .ok acc') (h : ChildrenNodup acc.1) :
    ChildrenNodup acc'.1 := by
  induction l generalizing acc with
  | nil => cases hs; exact h
  | cons f rest ih =>
    simp only [autoFoldAux] at hs
    cases h1 : autoStep acc f with
    | error err => rw [h1] at hs; exact absurd hs (by simp [Bind.bind, Except.bind])
    | ok acc1 =>
      rw [h1] at hs
      simp only [Bind.bind, Except.bind] at hs
      exact ih acc1 hs (nodup_autoStep acc acc1 f h1 h)

theorem nodup_configuredEdgesAux (l : List Emp) (rk : Key) (d d' : Dict)
    (hs : configuredEdgesAux rk d l = .ok d') (h : ChildrenNodup d) :
    ChildrenNodup d' := by
  induction l generalizing d with
  | nil => cases hs; exact h
  | cons f rest ih =>
    simp only [configuredEdgesAux] at hs
    split at hs
    · exact Except.noConfusion hs
    · split at hs
      · exact ih _ hs h
      · split at hs
        · exact Except.noConfusion hs
        · exact ih _ hs (nodup_addChildEdge d f h)

theorem nodup_mapNodeAt_keepChildren (d : Dict) (k0 : Key) (f : Node → Node)
    (hf : ∀ nd, (f nd).children = nd.children) (h : ChildrenNodup d) :
    ChildrenNodup (mapNodeAt d k0 f) := by
  intro k nd hag
  rw [aget_mapNodeAt] at hag
  by_cases hk : k = k0
  · rw [if_pos hk] at hag
    obtain ⟨nd0, hag0, rfl⟩ := Option.map_eq_some'.mp hag
    rw [hf nd0]
    exact h k nd0 hag0
  · rw [if_neg hk] at hag
    exact h k nd hag

theorem nodup_removeRootChild (rk : Key) (d : Dict) (h : ChildrenNodup d) :
    ChildrenNodup (removeRootChild rk d) := by
  intro k nd hag
  rw [removeRootChild, aget_map_children] at hag
  obtain ⟨nd0, hag0, rfl⟩ := Option.map_eq_some'.mp hag
  exact (h k nd0 hag0).filter _

theorem selfChildOnly_appendChild (d : Dict) (k0 ck : Key) (s : String)
    (h : SelfChildOnly d s) (hck : ck = some s → k0 = some s) :
    SelfChildOnly (appendChild d k0 ck) s := by
  intro k nd hag hmem
  simp only [appendChild, aget_mapNodeAt] at hag
  by_cases hk : k = k0
  · rw [if_pos hk] at hag
    obtain ⟨nd0, hag0, rfl⟩ := Option.map_eq_some'.mp hag
    by_cases hc : ck ∈ nd0.children
    · rw [if_pos hc] at hmem
      exact h k nd0 hag0 hmem
    · rw [if_neg hc] at hmem
      rcases List.mem_append.mp hmem with hmem' | hmem'
      · exact h k nd0 hag0 hmem'
      · rw [List.mem_singleton] at hmem'
        rw [hk, hck hmem'.symm]
  · rw [if_neg hk] at hag
    exact h k nd hag hmem

theorem selfChildOnly_addChildEdge (d : Dict) (f : Emp) (s : String)
    (h : SelfChildOnly d s) (hf : f.id = some s → f.managerId = some s) :
    SelfChildOnly (addChildEdge d f) s := by
  unfold addChildEdge
  by_cases hc : pyTruthy f.managerId ∧ (aget d f.managerId).isSome
  · rw [if_pos hc]
    exact selfChildOnly_appendChild d f.managerId f.id s h hf
  · rw [if_neg hc]
    exact h

theorem selfChildOnly_autoFoldAux (l : List Emp) (acc acc' : Dict × List Key)
    (s : String) (hs : autoFoldAux acc l = .ok acc')
    (hl : ∀ f ∈ l, f.id = some s → f.managerId = some s)
    (h : SelfChildOnly acc.1 s) : SelfChildOnly acc'.1 s := by
  induction l generalizing acc with
  | nil => cases hs; exact h
  | cons f rest ih =>
    simp only [autoFoldAux] at hs
    cases h1 : autoStep acc f with
    | error err => rw [h1] at hs; exact absurd hs (by simp [Bind.bind, Except.bind])
    | ok acc1 =>
      rw [h1] at hs
      simp only [Bind.bind, Except.bind] at hs
      have hstep : SelfChildOnly acc1.1 s := by
        simp only [autoStep] at h1
        split at h1
        · exact Except.noConfusion h1
        · split at h1
          · exact Except.noConfusion h1
          · split at h1 <;> (injection h1 with h1'; rw [← h1'])
            · exact selfChildOnly_addChildEdge acc.1 f s h
                (hl f (List.mem_cons_self f rest))
            · exact h
      exact ih acc1 hs (fun f' hf' => hl f' (List.mem_cons_of_mem f hf')) hstep

theorem selfChildOnly_configuredEdgesAux (l : List Emp) (rk : Key)
    (d d' : Dict) (s : String) (hs : configuredEdgesAux rk d l = .ok d')
    (hl : ∀ f ∈ l, f.id = some s → f.managerId = some s)
    (h : SelfChildOnly d s) : SelfChildOnly d' s := by
  induction l generalizing d with
  | nil => cases hs; exact h
  | cons f rest ih =>
    simp only [configuredEdgesAux] at hs
    split at hs
    · exact Except.noConfusion hs
    · split at hs
      · exact ih _ hs (fun f' hf' => hl f' (List.mem_cons_of_mem f hf')) h
      · split at hs
        · exact Except.noConfusion hs
        · exact ih _ hs (fun f' hf' => hl f' (List.mem_cons_of_mem f hf'))
            (selfChildOnly_addChildEdge d f s h (hl f (List.mem_cons_self f rest)))

theorem selfChildOnly_mapNodeAt_keepChildren (d : Dict) (k0 : Key)
    (f : Node → Node) (s : String)
    (hf : ∀ nd, (f nd).children = nd.children) (h : SelfChildOnly d s) :
    SelfChildOnly (mapNodeAt d k0 f) s := by
  intro k nd hag hmem
  rw [aget_mapNodeAt] at hag
  by_cases hk : k = k0
  · rw [if_pos hk] at hag
    obtain ⟨nd0, hag0, rfl⟩ := Option.map_eq_some'.mp hag
    rw [hf nd0] at hmem
    exact h k nd0 hag0 hmem
  · rw [if_neg hk] at hag
    exact h k nd hag hmem

theorem selfChildOnly_removeRootChild (rk : Key) (d : Dict) (s : String)
    (h : SelfChildOnly d s) : SelfChildOnly (removeRootChild rk d) s := by
  intro k nd hag hmem
  rw [removeRootChild, aget_map_children] at hag
  obtain ⟨nd0, hag0, rfl⟩ := Option.map_eq_some'.mp hag
  exact h k nd0 hag0 (List.mem_filter.mp hmem).1

theorem selfChildOnly_init (l : List Emp) (d0 d : Dict)
    (hs : initEmpDictAux d0 l = .ok d)
    (h0 : ∀ k nd, aget d0 k = some nd → nd.children = []) (s : String) :
    SelfChildOnly d s := by
  intro k nd hag hmem
  rw [initEmpDictAux_children_nil l d0 d hs h0 k nd hag] at hmem
  cases hmem
theorem idKeyed_of_dataAt (d1 d2 : Dict)
    (h : ∀ k, dataAt d2 k = dataAt d1 k) (hik : IdKeyed d1) : IdKeyed d2 := by
  intro k nd hag
  have hk := h k
  simp only [dataAt, hag] at hk
  cases h1 : aget d1 k with
  | none => rw [h1] at hk; simp at hk
  | some nd1 =>
    rw [h1] at hk
    simp only [Option.map_some', Option.some_inj] at hk
    rw [hk]
    exact hik k nd1 h1

theorem idKeyed_mapNodeAt_keepId (d : Dict) (k0 : Key) (f : Node → Node)
    (hf : ∀ nd, (f nd).data.getId = nd.data.getId) (h : IdKeyed d) :
    IdKeyed (mapNodeAt d k0 f) := by
  intro k nd hag
  rw [aget_mapNodeAt] at hag
  by_cases hk : k = k0
  · rw [if_pos hk] at hag
    obtain ⟨nd0, hag0, rfl⟩ := Option.map_eq_some'.mp hag
    rw [hf nd0]
    exact h k nd0 hag0
  · rw [if_neg hk] at hag
    exact h k nd hag

theorem idKeyed_removeRootChild (rk : Key) (d : Dict) (h : IdKeyed d) :
    IdKeyed (removeRootChild rk d) := by
  intro k nd hag
  rw [removeRootChild, aget_map_children] at hag
  obtain ⟨nd0, hag0, rfl⟩ := Option.map_eq_some'.mp hag
  exact h k nd0 hag0

/-- The collector's traversal never visits `s` when it starts away from
the node keyed `some s` and `some s` occurs as a child only of itself. -/
theorem traverse_succ (d : Dict) (fuel : Nat) (k : Key) (vis : List String) :
    traverse d (fuel + 1) k vis
      = match aget d k with
        | none => vis
        | some nd =>
          match nd.data.getId with
          | none => vis
          | some nid =>
            if nid = "" then vis
            else if nid ∈ vis then vis
            else nd.children.foldl (fun v ck => traverse d fuel ck v)
              (vis ++ [nid]) := rfl

theorem traverse_avoid (d : Dict) (s : String) (hso : SelfChildOnly d s)
    (hik : IdKeyed d) :
    ∀ (fuel : Nat) (k : Key) (vis : List String), k ≠ some s → s ∉ vis →
      s ∉ traverse d fuel k vis := by
  intro fuel
  induction fuel with
  | zero => intro k vis _ hv; exact hv
  | succ fuel ih =>
    intro k vis hk hv
    cases hag : aget d k with
    | none => rw [traverse_succ]; simp only [hag]; exact hv
    | some nd =>
      cases hgid : nd.data.getId with
      | none => rw [traverse_succ]; simp only [hag, hgid]; exact hv
      | some nid =>
        rw [traverse_succ]
        simp only [hag, hgid]
        have hkey := hik k nd hag
        rw [hgid] at hkey
        have hnid : nid ≠ s := fun hns => hk (by rw [← hkey, hns])
        by_cases h0 : nid = ""
        · rw [if_pos h0]; exact hv
        · rw [if_neg h0]
          by_cases h1 : nid ∈ vis
          · rw [if_pos h1]; exact hv
          · rw [if_neg h1]
            have hch : ∀ ck ∈ nd.children, ck ≠ some s := by
              intro ck hck hcs
              rw [hcs] at hck
              exact hk (hso k nd hag hck)
            have hv' : s ∉ vis ++ [nid] := by
              intro hmem
              rcases List.mem_append.mp hmem with hmem' | hmem'
              · exact hv hmem'
              · rw [List.mem_singleton] at hmem'
                exact hnid hmem'.symm
            suffices hsuf : ∀ (cks : List Key) (v : List String),
                (∀ ck ∈ cks, ck ≠ some s) → s ∉ v →
                s ∉ cks.foldl (fun v ck => traverse d fuel ck v) v by
              exact hsuf nd.children (vis ++ [nid]) hch hv'
            intro cks
            induction cks with
            | nil => intro v _ hv0; exact hv0
            | cons c cs ihc =>
              intro v hcks hv0
              simp only [List.foldl_cons]
              exact ihc (traverse d fuel c v)
                (fun ck hck => hcks ck (List.mem_cons_of_mem c hck))
                (ih c v (hcks c (List.mem_cons_self c cs)) hv0)

theorem mem_stableSortAux {α : Type} (lt : α → α → Bool) (x : α) :
    ∀ l acc : List α,
      x ∈ l.foldl (fun acc a => stableInsert lt a acc) acc
        ↔ x ∈ acc ∨ x ∈ l
  | [], acc => by simp
  | a :: l, acc => by
    rw [List.foldl_cons, mem_stableSortAux lt x l _]
    rw [mem_stableInsert]
    simp only [List.mem_cons]
    tauto

theorem mem_stableSort {α : Type} (lt : α → α → Bool) (x : α) (l : List α) :
    x ∈ stableSort lt l ↔ x ∈ l := by
  rw [stableSort, mem_stableSortAux]
  simp

theorem childMem_removeRootChild (rk : Key) (d : Dict) (k ck : Key)
    (hne : ck ≠ rk) (h : childMem d k ck) :
    childMem (removeRootChild rk d) k ck := by
  obtain ⟨nd, hg, hm⟩ := h
  refine ⟨{ nd with children := nd.children.filter (· ≠ rk) }, ?_, ?_⟩
  · rw [removeRootChild, aget_map_children, hg]
    rfl
  · exact List.mem_filter.mpr ⟨hm, by simp [hne]⟩

theorem buildAuto_dict (emps : List Emp) (d0 d : Dict) (rk : Key)
    (h : buildAuto emps d0 = .ok (some (d, rk))) :
    ∃ cands, autoFoldAux (d0, []) emps = .ok (d, cands) := by
  simp only [buildAuto] at h
  cases hf : autoFoldAux (d0, []) emps with
  | error err => rw [hf] at h; exact absurd h (by simp [Bind.bind, Except.bind])
  | ok acc =>
    obtain ⟨df, cands⟩ := acc
    rw [hf] at h
    simp only [Bind.bind, Except.bind] at h
    refine ⟨cands, ?_⟩
    suffices hdf : df = d by rw [hdf]
    split at h
    · split at h
      · injection h with h1
        injection h1 with h2
        exact congrArg Prod.fst h2
      · split at h
        · injection h with h1
          injection h1 with h2
          exact congrArg Prod.fst h2
        · simp at h
    · split at h
      · split at h
        · split at h
          · injection h with h1
            injection h1 with h2
            exact congrArg Prod.fst h2
          · exact Except.noConfusion h
        · injection h with h1
          injection h1 with h2
          exact congrArg Prod.fst h2
      · split at h
        · split at h
          · split at h
            · injection h with h1
              injection h1 with h2
              exact congrArg Prod.fst h2
            · exact Except.noConfusion h
          · exact Except.noConfusion h
        · simp at h

theorem buildConfigured_parts (emps : List Emp) (d0 : Dict) (rk0 : Key)
    (d : Dict) (k : Key) (h : buildConfigured emps d0 rk0 = .ok (d, k)) :
    k = rk0
    ∧ ∃ d2, configuredEdgesAux rk0 (mapNodeAt d0 rk0 clearManagerId) emps
          = .ok d2
        ∧ d = removeRootChild rk0 d2 := by
  simp only [buildConfigured] at h
  cases hce : configuredEdgesAux rk0 (mapNodeAt d0 rk0 clearManagerId) emps with
  | error err => rw [hce] at h; exact absurd h (by simp [Bind.bind, Except.bind])
  | ok d2 =>
    rw [hce] at h
    simp only [Bind.bind, Except.bind] at h
    injection h with h1
    exact ⟨(congrArg Prod.snd h1).symm, d2, rfl, (congrArg Prod.fst h1).symm⟩

theorem build_branches (emps : List Emp) (ov : Option String) (st : Settings)
    (d : Dict) (rk : Key)
    (h : build_org_hierarchy emps ov st = .ok (some (d, rk))) :
    ∃ d0, initEmpDict emps = .ok d0
      ∧ (buildAuto emps d0 = .ok (some (d, rk))
         ∨ ∃ rk0, configuredRootKey emps d0 ov st = .ok (some rk0)
             ∧ buildConfigured emps d0 rk0 = .ok (d, rk)) := by
  simp only [build_org_hierarchy] at h
  split at h
  · simp at h
  · cases hinit : initEmpDict emps with
    | error err => rw [hinit] at h; exact absurd h (by simp [Bind.bind, Except.bind])
    | ok d0 =>
      simp only [hinit, Bind.bind, Except.bind] at h
      cases hcfg : configuredRootKey emps d0 ov st with
      | error err => rw [hcfg] at h; exact absurd h (by simp)
      | ok r =>
        simp only [hcfg] at h
        cases r with
        | none => exact ⟨d0, rfl, Or.inl h⟩
        | some rk0 =>
          split at h
          next k heq =>
            injection heq with heq'
            subst heq'
            split at h
            next err heq2 => exact Except.noConfusion h
            next v heq2 =>
              injection h with h1
              injection h1 with h2
              exact ⟨d0, rfl, Or.inr ⟨rk0, hcfg, by rw [heq2, h2]⟩⟩
          next heq => exact Option.noConfusion heq
theorem key_count_eq_one (l : List Key) (a : Key) (hnd : l.Nodup)
    (hm : a ∈ l) : l.count a = 1 := by
  induction l with
  | nil => cases hm
  | cons b t ih =>
    rw [List.count_cons]
    rcases List.mem_cons.mp hm with h1 | h1
    · subst h1
      have hnt : a ∉ t := (List.nodup_cons.mp hnd).1
      rw [List.count_eq_zero.mpr hnt]
      simp
    · have hne : a ≠ b := fun h2 => (List.nodup_cons.mp hnd).1 (h2 ▸ h1)
      rw [ih (List.nodup_cons.mp hnd).2 h1]
      simp [hne, Ne.symm hne]

/-- C5 amended: an employee whose `managerId` equals its own (non-empty,
unique) id and who is not the selected root is treated as having a
resolvable manager — itself — and is appended exactly once to its own
`children` list (the duplicate-child guard prevents a second append);
however, `collect_missing_manager_records` DOES emit a missing-manager
record for it (unless exempted by the top-user email), with the
structural classification `detached`, since the node is unreachable from
the root. -/
theorem C5_theorem (emps : List Emp) (ov : Option String) (st : Settings)
    (e : Emp) (s : String) (d : Dict) (rk : Key) (st' : Settings)
    (ov' : Option String)
    (hWF : ∀ f ∈ emps, wellFormed f = true)
    (he : e ∈ emps) (hid : e.id = some s) (hmid : e.managerId = some s)
    (hsne : s ≠ "")
    (hown : ∀ f ∈ emps, f.id = some s → f.managerId = some s)
    (hb : build_org_hierarchy emps ov st = .ok (some (d, rk)))
    (hrk : rk ≠ some s)
    (htue : skipAsTopUser (effTopUserEmail st' ov') e = false) :
    (∃ nd, aget d (some s) = some nd ∧ nd.children.count (some s) = 1)
    ∧ ∃ r ∈ collect_missing_manager_records emps (some (d, rk)) st' ov',
        r.id = some s ∧ r.missingReason = "detached" := by
  obtain ⟨d0, hinit, hbr⟩ := build_branches emps ov st d rk hb
  have hik0 : IdKeyed d0 := initEmpDictAux_keyed emps [] d0 hinit
    (fun k nd hg => absurd hg (by simp [aget]))
  have hch0 : ∀ k nd, aget d0 k = some nd → nd.children = [] :=
    initEmpDictAux_children_nil emps [] d0 hinit
      (fun k nd hg => absurd hg (by simp [aget]))
  have hnd0 : ChildrenNodup d0 := fun k nd hg => by
    rw [hch0 k nd hg]; exact List.nodup_nil
  have hso0 : SelfChildOnly d0 s := selfChildOnly_init emps [] d0 hinit
    (fun k nd hg => absurd hg (by simp [aget])) s
  have hpr0 : (aget d0 (some s)).isSome = true := by
    have h := initEmpDictAux_presence emps [] d0 hinit e.id (Or.inr ⟨e, he, rfl⟩)
    rw [hid] at h
    exact h
  have hwf_e := wellFormed_spec e (hWF e he)
  have hmain : childMem d (some s) (some s) ∧ ChildrenNodup d
      ∧ SelfChildOnly d s ∧ IdKeyed d := by
    rcases hbr with hauto | ⟨rk0, hcfg, hbc⟩
    · obtain ⟨cands, hfold⟩ := buildAuto_dict emps d0 d rk hauto
      refine ⟨?_, ?_, ?_, ?_⟩
      · exact autoFoldAux_self_edge emps (d0, []) (d, cands) e s hfold he hid
          hmid hsne hpr0
      · exact nodup_autoFoldAux emps (d0, []) (d, cands) hfold hnd0
      · exact selfChildOnly_autoFoldAux emps (d0, []) (d, cands) s hfold hown hso0
      · exact idKeyed_of_dataAt d0 d
          (fun k => dataAt_autoFoldAux emps (d0, []) (d, cands) hfold k) hik0
    · obtain ⟨hkrk, d2, hedges, hd⟩ := buildConfigured_parts emps d0 rk0 d rk hbc
      subst hkrk
      subst hd
      have hF : ∀ nd, (clearManagerId nd).children = nd.children := fun nd => rfl
      have hG : ∀ nd, (clearManagerId nd).data.getId = nd.data.getId :=
        fun nd => rfl
      have hso1 : SelfChildOnly (mapNodeAt d0 rk clearManagerId) s :=
        selfChildOnly_mapNodeAt_keepChildren d0 rk clearManagerId s hF hso0
      have hnd1 : ChildrenNodup (mapNodeAt d0 rk clearManagerId) :=
        nodup_mapNodeAt_keepChildren d0 rk clearManagerId hF hnd0
      have hik1 : IdKeyed (mapNodeAt d0 rk clearManagerId) :=
        idKeyed_mapNodeAt_keepId d0 rk clearManagerId hG hik0
      have hpr1 : (aget (mapNodeAt d0 rk clearManagerId) (some s)).isSome
          = true := by
        rw [aget_mapNodeAt]
        by_cases hks : (some s : Key) = rk
        · rw [if_pos hks]
          cases h0 : aget d0 (some s) with
          | none => rw [h0] at hpr0; exact Bool.noConfusion hpr0
          | some nd => rfl
        · rw [if_neg hks]
          exact hpr0
      refine ⟨?_, ?_, ?_, ?_⟩
      · refine childMem_removeRootChild rk d2 (some s) (some s)
          (fun hck => hrk hck.symm) ?_
        exact configuredEdgesAux_self_edge emps rk _ d2 e s hedges he hid hmid
          hsne hrk hpr1
      · exact nodup_removeRootChild rk d2
          (nodup_configuredEdgesAux emps rk _ d2 hedges hnd1)
      · exact selfChildOnly_removeRootChild rk d2 s
          (selfChildOnly_configuredEdgesAux emps rk _ d2 s hedges hown hso1)
      · exact idKeyed_removeRootChild rk d2
          (idKeyed_of_dataAt _ d2
            (fun k => dataAt_configuredEdgesAux rk emps _ d2 hedges k) hik1)
  obtain ⟨hcm, hnodup, hso, hik⟩ := hmain
  obtain ⟨nd, hg, hm⟩ := hcm
  refine ⟨⟨nd, hg, ?_⟩, ?_⟩
  · exact key_count_eq_one nd.children (some s) (hnodup _ _ hg) hm
  have hgid : e.getId = some s := by simp [Emp.getId, hwf_e.1, hid]
  have hgm : e.getManagerId = some s := by
    simp [Emp.getManagerId, hwf_e.2.1, hmid]
  have hvisited : s ∉ visitedOf (some (d, rk)) := by
    unfold visitedOf
    exact traverse_avoid d s hso hik (d.length + 1) rk [] hrk (by simp)
  have hskiproot : skipAsRoot (rootIdsOf (some (d, rk))) e = false := by
    have hrn : rootNodeOf (some (d, rk)) = aget d rk := rfl
    rw [skipAsRoot, hgid]
    suffices hvm : visitedMem (rootIdsOf (some (d, rk))) (some s) = false by
      rw [hvm, Bool.and_false]
    cases hr : aget d rk with
    | none => simp [visitedMem, rootIdsOf, hrn, hr]
    | some ndr =>
      have hkeyr := hik rk ndr hr
      cases hgr : ndr.data.getId with
      | none => simp [visitedMem, rootIdsOf, hrn, hr, hgr]
      | some t =>
        have hrt : rk = some t := by rw [← hkeyr, hgr]
        have htne : t ≠ s := fun h1 => hrk (by rw [hrt, h1])
        by_cases ht0 : t = ""
        · simp [visitedMem, rootIdsOf, hrn, hr, hgr, ht0]
        · simp [visitedMem, rootIdsOf, hrn, hr, hgr, ht0, Ne.symm htne]
  have hidxmem : (aget (employeeIndex emps) (some s)).isSome = true := by
    show (aget (employeeIndexAux [] emps) (some s)).isSome = true
    exact (employeeIndexAux_mem emps [] s).mpr (Or.inr ⟨e, he, hgid, hsne⟩)
  have hidx' : (aget (employeeIndex emps) e.getManagerId).isNone = false := by
    rw [hgm]
    cases h0 : aget (employeeIndex emps) (some s) with
    | none => rw [h0] at hidxmem; exact Bool.noConfusion hidxmem
    | some v => rfl
  have hvm2 : visitedMem (visitedOf (some (d, rk))) e.getId = false := by
    rw [hgid]
    show (visitedOf (some (d, rk))).contains s = false
    cases hc : (visitedOf (some (d, rk))).contains s with
    | false => rfl
    | true => exact absurd (List.mem_of_elem_eq_true hc) hvisited
  have ht : pyTruthy e.getManagerId = true := by
    rw [hgm]; exact (pyTruthy_some_true_iff s).mpr hsne
  have hemit : ∃ r, emitFor (employeeIndex emps) (visitedOf (some (d, rk)))
      (rootIdsOf (some (d, rk))) (effTopUserEmail st' ov') e = some r
      ∧ r.id = some s ∧ r.missingReason = "detached" := by
    simp only [emitFor, hskiproot, htue, Bool.false_eq_true, if_false,
      classifyMissing, ht, hidx', hvm2, not_true, not_false_iff, if_true]
    exact ⟨_, rfl, hgid, rfl⟩
  obtain ⟨r, hremit, hrid, hrmr⟩ := hemit
  refine ⟨r, ?_, hrid, hrmr⟩
  have hne : emps.isEmpty = false := by
    cases emps with
    | nil => cases he
    | cons a l => rfl
  simp only [collect_missing_manager_records, hne, Bool.false_eq_true, if_false]
  rw [mem_stableSort]
  exact List.mem_filterMap.mpr ⟨e, he, hremit⟩

/-- The hierarchy built over `[empPlain, empSelf]`: auto-detect picks
`empPlain` (the sole candidate) as root. -/
def selfDemo : Dict × Key :=
  ((build_org_hierarchy [empPlain, empSelf] none noSettings).toOption.getD
    none).getD ([], none)

/-- C5 counterexample: `empSelf` manages itself and is not the root, yet
`collect_missing_manager_records` DOES emit a record for it (classified
`detached`), contradicting the claim that it is never flagged missing. -/
theorem C5_counterexample :
    build_org_hierarchy [empPlain, empSelf] none noSettings
      = .ok (some selfDemo)
    ∧ selfDemo.2 ≠ some "x"
    ∧ empSelf.id = some "x" ∧ empSelf.managerId = some "x"
    ∧ ((collect_missing_manager_records [empPlain, empSelf] (some selfDemo)
        noSettings none).any fun r =>
          r.id == some "x" && r.missingReason == "detached") = true :=
  ⟨rfl, by decide, rfl, rfl, by decide⟩

/-- C5 witness: the amended theorem applied to `empSelf` inside
`[empPlain, empSelf]`. -/
theorem C5_witness :
    (∃ nd, aget selfDemo.1 (some "x") = some nd
        ∧ nd.children.count (some "x") = 1)
    ∧ ∃ r ∈ collect_missing_manager_records [empPlain, empSelf]
        (some (selfDemo.1, selfDemo.2)) noSettings none,
        r.id = some "x" ∧ r.missingReason = "detached" :=
  C5_theorem [empPlain, empSelf] none noSettings empSelf "x"
    selfDemo.1 selfDemo.2 noSettings none
    (by decide) (by decide) rfl rfl (by decide) (by decide)
    (by rfl) (by decide) (by rfl)
